import Mathlib

/-!
Verification of the maze search core of `pathfinding.py` and `Boi_pathfinding.py`.

The two files implement the Lee algorithm (breadth-first search) over a grid of
one-character cells.  This development shallowly embeds the search engine:

* grids are lists of rows of characters (`Maze`), points are pairs of Python
  integers (`Point`), so coordinates may be negative;
* Python sequence indexing (including the negative wrap-around and the
  `IndexError` on out-of-range access) is modelled by `pyIdx`, `pyGet`,
  `pyGet2` and `pySet2`;
* the queue entries `(x, y, dist, move, prev_cell)` are modelled by `Node`,
  where the constructor `Node.root` is the case `prev_cell = None` and
  `Node.cons` carries the previous tuple;
* the `while q:` loop is modelled by `bfsLoop`, structurally recursive on a
  fuel argument; running out of fuel yields the artificial error
  `PyErr.outOfFuel`, which is proved unreachable for the fuel that
  `find_shortest_path` supplies;
* the progress-printing branch of the loop only touches the components
  `allPaths` and `lastPrinted` of the search state (the console and the
  window are outside the model).
-/

namespace PyPath

/-- Cell kinds, as in the sources: `WALL = "#"`. -/
def WALL : Char := '#'

/-- `FREE = "."` in the sources (used only to build concrete grids here). -/
def FREE : Char := '.'

/-- A maze is a list of rows of one-character cells, `Maze = List[List[str]]`. -/
abbrev Maze := List (List Char)

/-- A point `(x, y)` of Python integers. -/
abbrev Point := Int × Int

/-! ### Python sequence indexing -/

/-- Python list indexing: an index `i` with `0 ≤ i < n` is used as is, an index
with `-n ≤ i < 0` wraps around to `n + i`, and anything else raises
`IndexError` (modelled as `none`). -/
def pyIdx (n : Nat) (i : Int) : Option Nat :=
  if 0 ≤ i then
    if i < (n : Int) then some i.toNat else none
  else
    if -(n : Int) ≤ i then some (i + (n : Int)).toNat else none

/-- `l[i]` for a Python list `l`. -/
def pyGet {α : Type} (l : List α) (i : Int) : Option α :=
  (pyIdx l.length i).bind fun k => l[k]?

/-- `m[y][x]` for a Python list of lists. -/
def pyGet2 {α : Type} (m : List (List α)) (y x : Int) : Option α :=
  (pyGet m y).bind fun row => pyGet row x

/-- `m[y][x] = a` for a Python list of lists: evaluates `m[y]`, then item-assigns
index `x` of that row.  `none` models the `IndexError` raised on out-of-range
access. -/
def pySet2 {α : Type} (m : List (List α)) (y x : Int) (a : α) : Option (List (List α)) :=
  (pyIdx m.length y).bind fun ky =>
    (m[ky]?).bind fun row =>
      (pyIdx row.length x).map fun kx => m.set ky (row.set kx a)

/-! ### Grid access with natural-number coordinates -/

/-- Length of row `y` of the maze (0 when the row does not exist). -/
def matRowLen (mat : Maze) (y : Nat) : Nat := (mat[y]?.getD []).length

/-- The character at row `y`, column `x`.  The default `WALL` is only consulted
out of range, where every use is guarded by bounds checks. -/
def cellIs (mat : Maze) (y x : Nat) : Char := (mat[y]?.getD []).getD x WALL

/-- The visited flag at row `y`, column `x`.  The default `true` (treat as
visited, hence not enterable) is only consulted out of range, where every use
is guarded by bounds checks against the same-shaped maze. -/
def visGet (v : List (List Bool)) (y x : Nat) : Bool := (v[y]?.getD []).getD x true

/-! ### Moves -/

/-- The four move directions. -/
inductive Move : Type where
  | Right
  | Down
  | Left
  | Up
deriving DecidableEq, Repr

/-- The `possible_moves` dictionary of the sources, in its insertion (and hence
iteration) order: Right, Down, Left, Up, with the unit displacements
`(dx, dy)`. -/
def possible_moves : List (Move × (Int × Int)) :=
  [(Move.Right, (1, 0)), (Move.Down, (0, 1)), (Move.Left, (-1, 0)), (Move.Up, (0, -1))]

/-! ### Search nodes -/

/-- A queue entry `(x, y, dist, move, prev_cell)`.  `Node.root` is the case
`prev_cell = None` (the source entry is built as `(sx, sy, 0, None, None)`);
`Node.cons` carries the previous tuple.  The `move` slot has type
`Optional[str]` in the source, hence `Option Move` in both constructors. -/
inductive Node : Type where
  | root (x y : Int) (dist : Nat) (move : Option Move)
  | cons (x y : Int) (dist : Nat) (move : Option Move) (prev : Node)
deriving DecidableEq, Repr

/-- The x coordinate of a node. -/
def Node.x : Node → Int
  | .root x _ _ _ => x
  | .cons x _ _ _ _ => x

/-- The y coordinate of a node. -/
def Node.y : Node → Int
  | .root _ y _ _ => y
  | .cons _ y _ _ _ => y

/-- The distance slot of a node. -/
def Node.dist : Node → Nat
  | .root _ _ d _ => d
  | .cons _ _ d _ _ => d

/-- The incoming-move slot of a node. -/
def Node.move : Node → Option Move
  | .root _ _ _ m => m
  | .cons _ _ _ m _ => m

/-- The cell `(x, y)` of a node. -/
def Node.cell (n : Node) : Point := (n.x, n.y)

/-! ### The search state -/

/-- An entry of the progress set `all_paths`: the console branch adds pairs
`(x, y)`, the canvas branch of `Boi_pathfinding.py` adds triples
`(x, y, move)`. -/
inductive ProgEntry : Type where
  | pt (p : Point)
  | ptMove (p : Point) (m : Option Move)
deriving DecidableEq, Repr

/-- The mutable state of one search invocation: the visited overlay, the FIFO
queue, and the two progress-only variables `all_paths` and
`last_printed_distance`. -/
structure SState : Type where
  visited : List (List Bool)
  q : List Node
  allPaths : List ProgEntry
  lastPrinted : Option Nat
deriving Repr

/-! ### The search engine of `pathfinding.py` -/

/-- `is_valid(px, py)` of `pathfinding.py`: the short-circuit conjunction of
the bounds checks, the wall check, and the not-yet-visited check. -/
def is_valid (mat : Maze) (visited : List (List Bool)) (px py : Int) : Bool :=
  decide (0 ≤ py) && decide (py < (mat.length : Int)) && decide (0 ≤ px) &&
    decide (px < (matRowLen mat py.toNat : Int)) &&
    (cellIs mat py.toNat px.toNat != WALL) && (! visGet visited py.toNat px.toNat)

/-- Mark cell `(x, y)` (natural-number coordinates) visited.  Callers only use
in-range coordinates, established by `is_valid`. -/
def setVisited (v : List (List Bool)) (y x : Nat) : List (List Bool) :=
  match v[y]? with
  | some row => v.set y (row.set x true)
  | none => v

/-- The `for move, (dx, dy) in possible_moves.items():` loop body of
`pathfinding.py`: for each move in order, if the target is enterable, mark it
visited and append the new queue entry. -/
def expandFold (mat : Maze) (n : Node) :
    List (Move × (Int × Int)) → List (List Bool) × List Node → List (List Bool) × List Node
  | [], s => s
  | (m, (dx, dy)) :: ms, (vis, q) =>
    if is_valid mat vis (n.x + dx) (n.y + dy) then
      expandFold mat n ms
        (setVisited vis (n.y + dy).toNat (n.x + dx).toNat,
         q ++ [Node.cons (n.x + dx) (n.y + dy) (n.dist + 1) (some m) n])
    else
      expandFold mat n ms (vis, q)

/-- The `if print_progress:` block of `pathfinding.py`.  With a canvas,
`gui_update` draws the dequeued cell and changes no search state; on the
console, the dequeued cell is added to `all_paths` and, when the distance
changed, the maze is reprinted and `last_printed_distance` updated.  Only the
progress components of the state are touched. -/
def progressStep (print_progress canvas : Bool) (st : SState) (n : Node) : SState :=
  if print_progress then
    if canvas then st
    else
      let ap := List.insert (ProgEntry.pt (n.x, n.y)) st.allPaths
      if st.lastPrinted ≠ some n.dist then
        { st with allPaths := ap, lastPrinted := some n.dist }
      else
        { st with allPaths := ap }
  else st

/-- The `while q:` loop of `pathfinding.py`: dequeue the front node, report
progress, stop when the destination is reached, otherwise expand the four
moves.  `fuel` bounds the number of iterations; `none` models running out of
fuel (proved unreachable for the fuel supplied by `find_shortest_path`).  The
result is the terminal node (`none` when the queue emptied, mirroring
`min_dist == sys.maxsize`) together with the final state. -/
def bfsLoop (mat : Maze) (ex ey : Int) (print_progress canvas : Bool) :
    Nat → SState → Option (Option Node × SState)
  | 0, st =>
    match st.q with
    | [] => some (none, st)
    | _ :: _ => none
  | fuel + 1, st =>
    match st.q with
    | [] => some (none, st)
    | n :: rest =>
      let st1 := progressStep print_progress canvas { st with q := rest } n
      if n.x = ex ∧ n.y = ey then some (some n, st1)
      else
        let vq := expandFold mat n possible_moves (st1.visited, st1.q)
        bfsLoop mat ex ey print_progress canvas fuel { st1 with visited := vq.1, q := vq.2 }

/-- The reconstruction loop at the end of `find_shortest_path`: walk the
`prev_cell` references back to the source entry (the `root`), prepending each
cell and its move; the source cell itself is never added. -/
def reconstruct : Node → List Point × List (Option Move)
  | .root _ _ _ _ => ([], [])
  | .cons x y _ mv p =>
    let r := reconstruct p
    (r.1 ++ [(x, y)], r.2 ++ [mv])

/-- The errors a call can raise: `indexError` models the `IndexError` of an
out-of-range Python index; `outOfFuel` is the artificial bound of the loop
model, proved unreachable. -/
inductive PyErr : Type where
  | indexError
  | outOfFuel
deriving DecidableEq, Repr

/-- Total number of cells of the maze. -/
def cellCount (mat : Maze) : Nat := (mat.map List.length).sum

/-- `visited = [[False for _ in row] for row in mat]`. -/
def mkVisited (mat : Maze) : List (List Bool) :=
  mat.map (fun row => row.map (fun _ => false))

/-- The comparison `cell == 0` of the entry check.  The cells are Python
strings, and in Python a `str` never compares equal to the `int` `0`, so the
comparison is constantly false. -/
def pyStrEqZero (_ : Char) : Bool := false

/-- Everything in `find_shortest_path` of `pathfinding.py` after the entry
check: build the visited overlay, mark the source visited (a wrap-around item
assignment), enqueue the source entry `(sx, sy, 0, None, None)`, run the
search loop, and on success reconstruct the path. -/
def searchFrom (mat : Maze) (sx sy ex ey : Int) (print_progress canvas : Bool) :
    Except PyErr (Option (List Point × List (Option Move))) :=
  match pySet2 (mkVisited mat) sy sx true with
  | none => .error .indexError
  | some visited =>
    match bfsLoop mat ex ey print_progress canvas (cellCount mat + 1)
        ⟨visited, [Node.root sx sy 0 none], [], none⟩ with
    | none => .error .outOfFuel
    | some (none, _) => .ok none
    | some (some n, _) => .ok (some (reconstruct n))

/-- `find_shortest_path` of `pathfinding.py`.  The entry check
`if not mat or len(mat) == 0 or mat[sy][sx] == 0 or mat[ey][ex] == 0` returns
`(None, None)` on an empty maze; on a non-empty maze it evaluates
`mat[sy][sx]` and `mat[ey][ex]` (raising `IndexError` out of range) and
compares each to the integer `0`, a comparison that is constantly false for
string cells.  The optional `canvas` argument is modelled by a Boolean. -/
def find_shortest_path (mat : Maze) (start_point end_point : Point)
    (print_progress canvas : Bool) :
    Except PyErr (Option (List Point × List (Option Move))) :=
  let sx := start_point.1
  let sy := start_point.2
  let ex := end_point.1
  let ey := end_point.2
  if mat.isEmpty then .ok none
  else
    match pyGet2 mat sy sx, pyGet2 mat ey ex with
    | some cs, some ce =>
      if pyStrEqZero cs || pyStrEqZero ce then .ok none
      else searchFrom mat sx sy ex ey print_progress canvas
    | _, _ => .error .indexError

/-! ### The search engine of `Boi_pathfinding.py`

The second file is a near-duplicate of the first.  Its `find_shortest_path`
differs from the one above only inside the progress branch: with a canvas it
adds the triple `(x, y, move)` to `all_paths` and redraws the whole set,
instead of drawing only the newest cell.  The remaining functions are
copied verbatim; they are embedded again here so that the equivalence of the
two files is an actual theorem about two definitions. -/

/-- `is_valid(px, py)` of `Boi_pathfinding.py` (verbatim copy of the one in
`pathfinding.py`). -/
def Boi_is_valid (mat : Maze) (visited : List (List Bool)) (px py : Int) : Bool :=
  decide (0 ≤ py) && decide (py < (mat.length : Int)) && decide (0 ≤ px) &&
    decide (px < (matRowLen mat py.toNat : Int)) &&
    (cellIs mat py.toNat px.toNat != WALL) && (! visGet visited py.toNat px.toNat)

/-- The `possible_moves` dictionary of `Boi_pathfinding.py`, same entries and
order. -/
def Boi_possible_moves : List (Move × (Int × Int)) :=
  [(Move.Right, (1, 0)), (Move.Down, (0, 1)), (Move.Left, (-1, 0)), (Move.Up, (0, -1))]

/-- The expansion loop of `Boi_pathfinding.py`. -/
def Boi_expandFold (mat : Maze) (n : Node) :
    List (Move × (Int × Int)) → List (List Bool) × List Node → List (List Bool) × List Node
  | [], s => s
  | (m, (dx, dy)) :: ms, (vis, q) =>
    if Boi_is_valid mat vis (n.x + dx) (n.y + dy) then
      Boi_expandFold mat n ms
        (setVisited vis (n.y + dy).toNat (n.x + dx).toNat,
         q ++ [Node.cons (n.x + dx) (n.y + dy) (n.dist + 1) (some m) n])
    else
      Boi_expandFold mat n ms (vis, q)

/-- The `if print_progress:` block of `Boi_pathfinding.py`: with a canvas the
dequeued `(x, y, move)` triple is added to `all_paths` and the whole set is
redrawn; the console branch is the same as in `pathfinding.py`. -/
def Boi_progressStep (print_progress canvas : Bool) (st : SState) (n : Node) : SState :=
  if print_progress then
    if canvas then
      { st with allPaths := List.insert (ProgEntry.ptMove (n.x, n.y) n.move) st.allPaths }
    else
      let ap := List.insert (ProgEntry.pt (n.x, n.y)) st.allPaths
      if st.lastPrinted ≠ some n.dist then
        { st with allPaths := ap, lastPrinted := some n.dist }
      else
        { st with allPaths := ap }
  else st

/-- The `while q:` loop of `Boi_pathfinding.py`. -/
def Boi_bfsLoop (mat : Maze) (ex ey : Int) (print_progress canvas : Bool) :
    Nat → SState → Option (Option Node × SState)
  | 0, st =>
    match st.q with
    | [] => some (none, st)
    | _ :: _ => none
  | fuel + 1, st =>
    match st.q with
    | [] => some (none, st)
    | n :: rest =>
      let st1 := Boi_progressStep print_progress canvas { st with q := rest } n
      if n.x = ex ∧ n.y = ey then some (some n, st1)
      else
        let vq := Boi_expandFold mat n Boi_possible_moves (st1.visited, st1.q)
        Boi_bfsLoop mat ex ey print_progress canvas fuel
          { st1 with visited := vq.1, q := vq.2 }

/-- The reconstruction loop of `Boi_pathfinding.py` (verbatim copy). -/
def Boi_reconstruct : Node → List Point × List (Option Move)
  | .root _ _ _ _ => ([], [])
  | .cons x y _ mv p =>
    let r := Boi_reconstruct p
    (r.1 ++ [(x, y)], r.2 ++ [mv])

/-- Everything in `find_shortest_path` of `Boi_pathfinding.py` after the entry
check. -/
def Boi_searchFrom (mat : Maze) (sx sy ex ey : Int) (print_progress canvas : Bool) :
    Except PyErr (Option (List Point × List (Option Move))) :=
  match pySet2 (mkVisited mat) sy sx true with
  | none => .error .indexError
  | some visited =>
    match Boi_bfsLoop mat ex ey print_progress canvas (cellCount mat + 1)
        ⟨visited, [Node.root sx sy 0 none], [], none⟩ with
    | none => .error .outOfFuel
    | some (none, _) => .ok none
    | some (some n, _) => .ok (some (Boi_reconstruct n))

/-- `find_shortest_path` of `Boi_pathfinding.py`; the entry check is the same
as in `pathfinding.py`. -/
def Boi_find_shortest_path (mat : Maze) (start_point end_point : Point)
    (print_progress canvas : Bool) :
    Except PyErr (Option (List Point × List (Option Move))) :=
  let sx := start_point.1
  let sy := start_point.2
  let ex := end_point.1
  let ey := end_point.2
  if mat.isEmpty then .ok none
  else
    match pyGet2 mat sy sx, pyGet2 mat ey ex with
    | some cs, some ce =>
      if pyStrEqZero cs || pyStrEqZero ce then .ok none
      else Boi_searchFrom mat sx sy ex ey print_progress canvas
    | _, _ => .error .indexError

/-! ### Specification-side vocabulary

The following definitions express, independently of the loop, what the grid
graph is: which cells are inside the maze, which are free, and which cells a
walk of a given number of moves can reach.  They are used to state the claims
about shortest distances and reachable regions. -/

/-- The horizontal displacement of a move. -/
def Move.dx : Move → Int
  | .Right => 1
  | .Down => 0
  | .Left => -1
  | .Up => 0

/-- The vertical displacement of a move. -/
def Move.dy : Move → Int
  | .Right => 0
  | .Down => 1
  | .Left => 0
  | .Up => -1

/-- The cell reached from `p` by move `m`. -/
def stepPt (p : Point) (m : Move) : Point := (p.1 + m.dx, p.2 + m.dy)

/-- `p` lies within the bounds of the maze (row `p.2`, column `p.1`, both
non-negative). -/
def inB (mat : Maze) (p : Point) : Prop :=
  0 ≤ p.2 ∧ p.2 < (mat.length : Int) ∧ 0 ≤ p.1 ∧ p.1 < (matRowLen mat p.2.toNat : Int)

instance (mat : Maze) (p : Point) : Decidable (inB mat p) :=
  inferInstanceAs (Decidable (_ ∧ _ ∧ _ ∧ _))

/-- `p` is a cell of the maze that is not a `WALL`. -/
def freeCell (mat : Maze) (p : Point) : Prop :=
  inB mat p ∧ cellIs mat p.2.toNat p.1.toNat ≠ WALL

instance (mat : Maze) (p : Point) : Decidable (freeCell mat p) :=
  inferInstanceAs (Decidable (_ ∧ _))

/-- `Reaches mat s p n`: there is a walk of exactly `n` moves from `s` to `p`
all of whose cells (including `s` and `p`) are free cells of the maze. -/
inductive Reaches (mat : Maze) (s : Point) : Point → Nat → Prop where
  | refl (h : freeCell mat s) : Reaches mat s s 0
  | tail {c : Point} {n : Nat} (m : Move) (h : Reaches mat s c n)
      (hf : freeCell mat (stepPt c m)) : Reaches mat s (stepPt c m) (n + 1)

/-- The visited overlay records `true` at point `p` (in particular `p` has
non-negative coordinates and lies inside the overlay). -/
def visTrue (v : List (List Bool)) (p : Point) : Prop :=
  0 ≤ p.1 ∧ 0 ≤ p.2 ∧ ((v[p.2.toNat]?.getD []).getD p.1.toNat false) = true

instance (v : List (List Bool)) (p : Point) : Decidable (visTrue v p) :=
  inferInstanceAs (Decidable (_ ∧ _ ∧ _))

/-- The overlay has the same shape as the maze. -/
def Shape (v : List (List Bool)) (mat : Maze) : Prop :=
  v.length = mat.length ∧ ∀ i, (v[i]?.getD []).length = matRowLen mat i

/-- Number of unvisited cells of the overlay. -/
def countFalse (v : List (List Bool)) : Nat :=
  (v.map (fun row => row.count false)).sum

/-- A queue entry is well formed with respect to the maze and source: its
`prev` chain starts at the source entry, each link records the move that steps
from the previous cell to this one, distances increase by one along the chain,
and every cell after the source is a free cell. -/
def NodeOK (mat : Maze) (src : Point) : Node → Prop
  | .root x y d mv => (x, y) = src ∧ d = 0 ∧ mv = none
  | .cons x y d mv p =>
    (∃ m, mv = some m ∧ (x, y) = stepPt (p.x, p.y) m) ∧ d = p.dist + 1 ∧
      freeCell mat (x, y) ∧ NodeOK mat src p

/-- The queue holds at most two distance levels: a front segment at some
distance `D` followed by a back segment at `D + 1`. -/
def TwoLevel (q : List Node) : Prop :=
  ∃ D as bs, q = as ++ bs ∧ (∀ n ∈ as, Node.dist n = D) ∧ (∀ n ∈ bs, Node.dist n = D + 1)

/-- The invariant of the search loop, for a free in-bounds source `src`:

* `shape`: the visited overlay has the shape of the maze;
* `srcVis`: the source is visited;
* `reach`: every visited cell is reachable from the source by a walk over
  free cells;
* `qVis`, `qOK`: every queue entry is visited and well formed;
* `qMin`: the distance slot of a queue entry is a lower bound of the length
  of every walk from the source to its cell;
* `twoLevel`: the queue holds at most two consecutive distance levels (the
  FIFO discipline);
* `closure`: a visited cell that is no longer in the queue has all its free
  neighbors visited;
* `destQ`: if the destination is visited it is still in the queue (it has not
  been dequeued, or the loop would have stopped). -/
structure Inv (mat : Maze) (src dest : Point) (vis : List (List Bool)) (q : List Node) : Prop where
  shape : Shape vis mat
  srcVis : visTrue vis src
  reach : ∀ p, visTrue vis p → ∃ k, Reaches mat src p k
  qVis : ∀ n ∈ q, visTrue vis (Node.cell n)
  qOK : ∀ n ∈ q, NodeOK mat src n
  qMin : ∀ n ∈ q, ∀ k, Reaches mat src (Node.cell n) k → Node.dist n ≤ k
  twoLevel : TwoLevel q
  closure : ∀ p, visTrue vis p →
    p ∈ q.map Node.cell ∨ ∀ m : Move, freeCell mat (stepPt p m) → visTrue vis (stepPt p m)
  destQ : visTrue vis dest → dest ∈ q.map Node.cell

/-- The worked example grid of the documentation: rows `S..`, `##.`, `..E`,
source `(0, 0)`, destination `(2, 2)`. -/
def exGrid : Maze := [['S', '.', '.'], ['#', '#', '.'], ['.', '.', 'E']]

/-! ## Lemmas -/

/-! ### Python indexing -/

theorem pyIdx_of_nonneg_lt {n : Nat} {i : Int} (h0 : 0 ≤ i) (h1 : i < (n : Int)) :
    pyIdx n i = some i.toNat := by
  simp [pyIdx, h0, h1]

theorem pyIdx_lt {n : Nat} {i : Int} {k : Nat} (h : pyIdx n i = some k) : k < n := by
  unfold pyIdx at h
  split at h <;> split at h <;> simp_all <;> omega

theorem pyGet_of_pyIdx {α : Type} {l : List α} {i : Int} {k : Nat}
    (h : pyIdx l.length i = some k) : pyGet l i = l[k]? := by
  simp [pyGet, h]

theorem pyGet2_of_inB {mat : Maze} {p : Point} (h : inB mat p) :
    pyGet2 mat p.2 p.1 = some (cellIs mat p.2.toNat p.1.toNat) := by
  obtain ⟨h0, h1, h2, h3⟩ := h
  obtain ⟨row, hrow⟩ : ∃ row, mat[p.2.toNat]? = some row :=
    ⟨_, List.getElem?_eq_getElem (show p.2.toNat < mat.length by omega)⟩
  have hlen : matRowLen mat p.2.toNat = row.length := by
    simp [matRowLen, hrow]
  rw [hlen] at h3
  have hx : p.1.toNat < row.length := by omega
  unfold pyGet2
  rw [pyGet_of_pyIdx (pyIdx_of_nonneg_lt h0 h1), hrow]
  simp only [Option.some_bind]
  rw [pyGet_of_pyIdx (by rw [pyIdx_of_nonneg_lt h2 h3])]
  rw [List.getElem?_eq_getElem hx]
  simp [cellIs, hrow, List.getD_eq_getElem?_getD, List.getElem?_eq_getElem hx]

theorem pyGet2_isSome {α : Type} {m : List (List α)} {y x : Int} {a : α}
    (h : pyGet2 m y x = some a) :
    ∃ ky row kx, pyIdx m.length y = some ky ∧ m[ky]? = some row ∧
      pyIdx row.length x = some kx ∧ row[kx]? = some a := by
  unfold pyGet2 pyGet at h
  cases hky : pyIdx m.length y with
  | none => rw [hky] at h; simp at h
  | some ky =>
    rw [hky] at h
    simp only [Option.some_bind] at h
    cases hrow : m[ky]? with
    | none => rw [hrow] at h; simp at h
    | some row =>
      rw [hrow] at h
      simp only [Option.some_bind] at h
      cases hkx : pyIdx row.length x with
      | none => rw [hkx] at h; simp at h
      | some kx =>
        rw [hkx] at h
        simp only [Option.some_bind] at h
        exact ⟨ky, row, kx, rfl, hrow, hkx, h⟩

theorem mkVisited_getElem? (mat : Maze) (k : Nat) :
    (mkVisited mat)[k]? = mat[k]?.map (fun row => row.map (fun _ => false)) := by
  simp [mkVisited]

theorem pySet2_of_pyGet2 {mat : Maze} {y x : Int} {c : Char}
    (h : pyGet2 mat y x = some c) (b : Bool) :
    ∃ v, pySet2 (mkVisited mat) y x b = some v := by
  obtain ⟨ky, row, kx, hky, hrow, hkx, _⟩ := pyGet2_isSome h
  have hlen : (mkVisited mat).length = mat.length := by simp [mkVisited]
  have hrow' : (mkVisited mat)[ky]? = some (row.map (fun _ => false)) := by
    rw [mkVisited_getElem?, hrow]; rfl
  have hml : (row.map (fun _ => false)).length = row.length := by simp
  unfold pySet2
  rw [hlen, hky]
  simp only [Option.some_bind]
  rw [hrow']
  simp only [Option.some_bind]
  rw [hml, hkx]
  exact ⟨_, rfl⟩

/-! ### The progress branch only touches progress state -/

theorem progressStep_visited (pp c : Bool) (st : SState) (n : Node) :
    (progressStep pp c st n).visited = st.visited := by
  unfold progressStep
  split
  · split
    · rfl
    · split <;> rfl
  · rfl

theorem progressStep_q (pp c : Bool) (st : SState) (n : Node) :
    (progressStep pp c st n).q = st.q := by
  unfold progressStep
  split
  · split
    · rfl
    · split <;> rfl
  · rfl

theorem Boi_progressStep_visited (pp c : Bool) (st : SState) (n : Node) :
    (Boi_progressStep pp c st n).visited = st.visited := by
  unfold Boi_progressStep
  split
  · split
    · rfl
    · split <;> rfl
  · rfl

theorem Boi_progressStep_q (pp c : Bool) (st : SState) (n : Node) :
    (Boi_progressStep pp c st n).q = st.q := by
  unfold Boi_progressStep
  split
  · split
    · rfl
    · split <;> rfl
  · rfl

/-! ### Unfolding equations of the loops on destructured states -/

theorem bfsLoop_zero_nil (mat : Maze) (ex ey : Int) (pp c : Bool) (vis ap lp) :
    bfsLoop mat ex ey pp c 0 ⟨vis, [], ap, lp⟩ = some (none, ⟨vis, [], ap, lp⟩) := rfl

theorem bfsLoop_zero_cons (mat : Maze) (ex ey : Int) (pp c : Bool) (vis n rest ap lp) :
    bfsLoop mat ex ey pp c 0 ⟨vis, n :: rest, ap, lp⟩ = none := rfl

theorem bfsLoop_succ_nil (mat : Maze) (ex ey : Int) (pp c : Bool) (f : Nat) (vis ap lp) :
    bfsLoop mat ex ey pp c (f + 1) ⟨vis, [], ap, lp⟩ = some (none, ⟨vis, [], ap, lp⟩) := rfl

theorem bfsLoop_succ_cons (mat : Maze) (ex ey : Int) (pp c : Bool) (f : Nat) (vis n rest ap lp) :
    bfsLoop mat ex ey pp c (f + 1) ⟨vis, n :: rest, ap, lp⟩ =
      (let st1 := progressStep pp c ⟨vis, rest, ap, lp⟩ n
       if n.x = ex ∧ n.y = ey then some (some n, st1)
       else
         let vq := expandFold mat n possible_moves (st1.visited, st1.q)
         bfsLoop mat ex ey pp c f { st1 with visited := vq.1, q := vq.2 }) := rfl

theorem Boi_bfsLoop_zero_nil (mat : Maze) (ex ey : Int) (pp c : Bool) (vis ap lp) :
    Boi_bfsLoop mat ex ey pp c 0 ⟨vis, [], ap, lp⟩ = some (none, ⟨vis, [], ap, lp⟩) := rfl

theorem Boi_bfsLoop_zero_cons (mat : Maze) (ex ey : Int) (pp c : Bool) (vis n rest ap lp) :
    Boi_bfsLoop mat ex ey pp c 0 ⟨vis, n :: rest, ap, lp⟩ = none := rfl

theorem Boi_bfsLoop_succ_nil (mat : Maze) (ex ey : Int) (pp c : Bool) (f : Nat) (vis ap lp) :
    Boi_bfsLoop mat ex ey pp c (f + 1) ⟨vis, [], ap, lp⟩ = some (none, ⟨vis, [], ap, lp⟩) := rfl

theorem Boi_bfsLoop_succ_cons (mat : Maze) (ex ey : Int) (pp c : Bool) (f : Nat) (vis n rest ap lp) :
    Boi_bfsLoop mat ex ey pp c (f + 1) ⟨vis, n :: rest, ap, lp⟩ =
      (let st1 := Boi_progressStep pp c ⟨vis, rest, ap, lp⟩ n
       if n.x = ex ∧ n.y = ey then some (some n, st1)
       else
         let vq := Boi_expandFold mat n Boi_possible_moves (st1.visited, st1.q)
         Boi_bfsLoop mat ex ey pp c f { st1 with visited := vq.1, q := vq.2 }) := rfl

/-! ### Path reconstruction -/

theorem reconstruct_len (n : Node) : (reconstruct n).2.length = (reconstruct n).1.length := by
  induction n with
  | root x y d mv => simp [reconstruct]
  | cons x y d mv p ih => simp [reconstruct, ih]

theorem reconstruct_getLast (x y : Int) (d : Nat) (mv : Option Move) (p : Node) :
    (reconstruct (Node.cons x y d mv p)).1.getLast? = some (x, y) := by
  simp [reconstruct, List.getLast?_concat]

/-- A node dequeued as the terminal node satisfies the destination test. -/
theorem bfsLoop_found (mat : Maze) (ex ey : Int) (pp c : Bool) :
    ∀ (fuel : Nat) (st : SState) (n : Node) (st' : SState),
      bfsLoop mat ex ey pp c fuel st = some (some n, st') → n.x = ex ∧ n.y = ey := by
  intro fuel
  induction fuel with
  | zero =>
    rintro ⟨vis, q, ap, lp⟩ n st' h
    cases q with
    | nil => rw [bfsLoop_zero_nil] at h; simp at h
    | cons m rest => rw [bfsLoop_zero_cons] at h; simp at h
  | succ f ih =>
    rintro ⟨vis, q, ap, lp⟩ n st' h
    cases q with
    | nil => rw [bfsLoop_succ_nil] at h; simp at h
    | cons m rest =>
      rw [bfsLoop_succ_cons] at h
      simp only at h
      by_cases hd : m.x = ex ∧ m.y = ey
      · rw [if_pos hd] at h
        simp only [Option.some.injEq, Prod.mk.injEq] at h
        obtain ⟨rfl, -⟩ := h
        exact hd
      · rw [if_neg hd] at h
        exact ih _ _ _ h

/-- The loop result (terminal node) and the core components (visited overlay
and queue) of the final state do not depend on the progress flags. -/
theorem bfsLoop_core (mat : Maze) (ex ey : Int) (pp₁ c₁ pp₂ c₂ : Bool) :
    ∀ (fuel : Nat) (st₁ st₂ : SState), st₁.visited = st₂.visited → st₁.q = st₂.q →
      Option.map (fun r => (r.1, r.2.visited, r.2.q)) (bfsLoop mat ex ey pp₁ c₁ fuel st₁) =
        Option.map (fun r => (r.1, r.2.visited, r.2.q)) (bfsLoop mat ex ey pp₂ c₂ fuel st₂) := by
  intro fuel
  induction fuel with
  | zero =>
    rintro ⟨v₁, q₁, a₁, l₁⟩ ⟨v₂, q₂, a₂, l₂⟩ hv hq
    simp only at hv hq
    subst hv; subst hq
    cases q₁ with
    | nil => rfl
    | cons n rest => rfl
  | succ f ih =>
    rintro ⟨v₁, q₁, a₁, l₁⟩ ⟨v₂, q₂, a₂, l₂⟩ hv hq
    simp only at hv hq
    subst hv; subst hq
    cases q₁ with
    | nil => rfl
    | cons n rest =>
      rw [bfsLoop_succ_cons, bfsLoop_succ_cons]
      dsimp only
      by_cases hd : n.x = ex ∧ n.y = ey
      · rw [if_pos hd, if_pos hd]
        simp [progressStep_visited, progressStep_q]
      · rw [if_neg hd, if_neg hd]
        apply ih <;>
          simp [progressStep_visited, progressStep_q]

/-! ### The two files run the same search -/

theorem Boi_is_valid_eq : Boi_is_valid = is_valid := rfl

theorem Boi_possible_moves_eq : Boi_possible_moves = possible_moves := rfl

theorem progressStep_false (c : Bool) (st : SState) (n : Node) :
    progressStep false c st n = st := rfl

theorem Boi_progressStep_false (c : Bool) (st : SState) (n : Node) :
    Boi_progressStep false c st n = st := rfl

theorem Boi_expandFold_eq (mat : Maze) (n : Node) :
    ∀ (ms : List (Move × (Int × Int))) (s : List (List Bool) × List Node),
      Boi_expandFold mat n ms s = expandFold mat n ms s := by
  intro ms
  induction ms with
  | nil => rintro ⟨vis, q⟩; rfl
  | cons hd tl ih =>
    rintro ⟨vis, q⟩
    obtain ⟨m, dx, dy⟩ := hd
    simp only [Boi_expandFold, expandFold, Boi_is_valid_eq]
    split <;> exact ih _

theorem Boi_reconstruct_eq : ∀ n : Node, Boi_reconstruct n = reconstruct n := by
  intro n
  induction n with
  | root x y d mv => rfl
  | cons x y d mv p ih => simp [Boi_reconstruct, reconstruct, ih]

theorem Boi_bfsLoop_false (mat : Maze) (ex ey : Int) (c : Bool) :
    ∀ (fuel : Nat) (st : SState),
      Boi_bfsLoop mat ex ey false c fuel st = bfsLoop mat ex ey false c fuel st := by
  intro fuel
  induction fuel with
  | zero => rintro ⟨v, q, a, l⟩; cases q <;> rfl
  | succ f ih =>
    rintro ⟨v, q, a, l⟩
    cases q with
    | nil => rfl
    | cons n rest =>
      rw [Boi_bfsLoop_succ_cons, bfsLoop_succ_cons]
      dsimp only
      rw [Boi_progressStep_false, progressStep_false]
      split
      · rfl
      · rw [Boi_expandFold_eq, Boi_possible_moves_eq]
        exact ih _

theorem Boi_searchFrom_false (mat : Maze) (sx sy ex ey : Int) (c : Bool) :
    Boi_searchFrom mat sx sy ex ey false c = searchFrom mat sx sy ex ey false c := by
  unfold Boi_searchFrom searchFrom
  cases hset : pySet2 (mkVisited mat) sy sx true with
  | none => rfl
  | some v =>
    dsimp only
    rw [Boi_bfsLoop_false]
    cases hloop : bfsLoop mat ex ey false c (cellCount mat + 1) ⟨v, [Node.root sx sy 0 none], [], none⟩ with
    | none => rfl
    | some r =>
      obtain ⟨res, st'⟩ := r
      cases res with
      | none => rfl
      | some n => dsimp only; rw [Boi_reconstruct_eq]

theorem searchFrom_pp (mat : Maze) (sx sy ex ey : Int) (pp₁ c₁ pp₂ c₂ : Bool) :
    searchFrom mat sx sy ex ey pp₁ c₁ = searchFrom mat sx sy ex ey pp₂ c₂ := by
  unfold searchFrom
  cases hset : pySet2 (mkVisited mat) sy sx true with
  | none => rfl
  | some v =>
    dsimp only
    have hcore := bfsLoop_core mat ex ey pp₁ c₁ pp₂ c₂ (cellCount mat + 1)
      ⟨v, [Node.root sx sy 0 none], [], none⟩ ⟨v, [Node.root sx sy 0 none], [], none⟩ rfl rfl
    cases h₁ : bfsLoop mat ex ey pp₁ c₁ (cellCount mat + 1)
        ⟨v, [Node.root sx sy 0 none], [], none⟩ with
    | none =>
      cases h₂ : bfsLoop mat ex ey pp₂ c₂ (cellCount mat + 1)
          ⟨v, [Node.root sx sy 0 none], [], none⟩ with
      | none => rfl
      | some r₂ => rw [h₁, h₂] at hcore; simp at hcore
    | some r₁ =>
      cases h₂ : bfsLoop mat ex ey pp₂ c₂ (cellCount mat + 1)
          ⟨v, [Node.root sx sy 0 none], [], none⟩ with
      | none => rw [h₁, h₂] at hcore; simp at hcore
      | some r₂ =>
        rw [h₁, h₂] at hcore
        obtain ⟨res₁, st₁⟩ := r₁
        obtain ⟨res₂, st₂⟩ := r₂
        simp only [Option.map_some', Option.some.injEq, Prod.mk.injEq] at hcore
        obtain ⟨hres, -⟩ := hcore
        subst hres
        cases res₁ with
        | none => rfl
        | some n => rfl

/-! ### Small facts about emptiness and walks -/

theorem pyIdx_zero (i : Int) : pyIdx 0 i = none := by
  unfold pyIdx
  split <;> split <;> first | rfl | omega

theorem pyGet2_nil {α : Type} (y x : Int) : pyGet2 ([] : List (List α)) y x = none := by
  simp [pyGet2, pyGet, pyIdx_zero]

theorem not_isEmpty_of_pyGet2 {mat : Maze} {y x : Int} {a : Char}
    (h : pyGet2 mat y x = some a) : ¬ mat.isEmpty = true := by
  intro he
  have : mat = [] := by
    cases mat with
    | nil => rfl
    | cons r rs => simp [List.isEmpty] at he
  rw [this, pyGet2_nil] at h
  exact Option.noConfusion h

/-- Every walk starts at a free source cell. -/
theorem Reaches_free_src {mat : Maze} {s p : Point} {k : Nat}
    (h : Reaches mat s p k) : freeCell mat s := by
  induction h with
  | refl hf => exact hf
  | tail m h hf ih => exact ih

/-- Every walk ends at a free cell. -/
theorem Reaches_free_target {mat : Maze} {s p : Point} {k : Nat}
    (h : Reaches mat s p k) : freeCell mat p := by
  cases h with
  | refl hf => exact hf
  | tail m h hf => exact hf

/-! ### Counting unvisited cells, and termination of the loop -/

theorem count_false_set_true :
    ∀ (row : List Bool) (x : Nat), row[x]? = some false →
      (row.set x true).count false + 1 = row.count false := by
  intro row
  induction row with
  | nil => intro x hx; simp at hx
  | cons b t ih =>
    intro x hx
    cases x with
    | zero =>
      simp only [List.getElem?_cons_zero, Option.some.injEq] at hx
      subst hx
      simp [List.count_cons]
    | succ x =>
      simp only [List.getElem?_cons_succ] at hx
      have := ih x hx
      cases b <;> simp [List.count_cons, List.set] <;> omega

theorem visGet_false_parts {v : List (List Bool)} {y x : Nat} (h : visGet v y x = false) :
    ∃ row, v[y]? = some row ∧ row[x]? = some false := by
  unfold visGet at h
  cases hy : v[y]? with
  | none => rw [hy] at h; simp at h
  | some row =>
    rw [hy] at h
    simp only [Option.getD_some] at h
    cases hx : row[x]? with
    | none => rw [List.getD_eq_getElem?_getD, hx] at h; simp at h
    | some b =>
      rw [List.getD_eq_getElem?_getD, hx] at h
      simp only [Option.getD_some] at h
      exact ⟨row, rfl, by rw [hx, h]⟩

theorem countFalse_setVisited :
    ∀ (v : List (List Bool)) (y x : Nat) (row : List Bool),
      v[y]? = some row → row[x]? = some false →
      countFalse (setVisited v y x) + 1 = countFalse v := by
  intro v
  induction v with
  | nil => intro y x row hy; simp at hy
  | cons r t ih =>
    intro y x row hy hx
    cases y with
    | zero =>
      simp only [List.getElem?_cons_zero, Option.some.injEq] at hy
      subst hy
      unfold setVisited
      simp only [List.getElem?_cons_zero]
      have := count_false_set_true r x hx
      simp [countFalse]
      omega
    | succ y =>
      simp only [List.getElem?_cons_succ] at hy
      unfold setVisited
      simp only [List.getElem?_cons_succ]
      rw [hy]
      have := ih y x row hy hx
      unfold setVisited at this
      rw [hy] at this
      simp only [countFalse, List.set, List.map_cons, List.sum_cons] at this ⊢
      omega

theorem is_valid_true_iff {mat : Maze} {v : List (List Bool)} {px py : Int} :
    is_valid mat v px py = true ↔
      0 ≤ py ∧ py < (mat.length : Int) ∧ 0 ≤ px ∧ px < (matRowLen mat py.toNat : Int) ∧
        cellIs mat py.toNat px.toNat ≠ WALL ∧ visGet v py.toNat px.toNat = false := by
  simp [is_valid, Bool.and_eq_true, decide_eq_true_eq, bne_iff_ne, Bool.not_eq_true',
    and_assoc]

theorem expandFold_count (mat : Maze) (n : Node) :
    ∀ (ms : List (Move × (Int × Int))) (vis : List (List Bool)) (q : List Node),
      countFalse (expandFold mat n ms (vis, q)).1 +
          (expandFold mat n ms (vis, q)).2.length =
        countFalse vis + q.length := by
  intro ms
  induction ms with
  | nil => intro vis q; rfl
  | cons hd tl ih =>
    rintro vis q
    obtain ⟨m, dx, dy⟩ := hd
    by_cases hvalid : is_valid mat vis (n.x + dx) (n.y + dy)
    · simp only [expandFold]
      rw [if_pos hvalid]
      obtain ⟨-, -, -, -, -, hfalse⟩ := is_valid_true_iff.mp hvalid
      obtain ⟨row, hrow, hx⟩ := visGet_false_parts hfalse
      have hcnt := countFalse_setVisited vis (n.y + dy).toNat (n.x + dx).toNat row hrow hx
      rw [ih]
      simp only [List.length_append, List.length_cons, List.length_nil]
      omega
    · simp only [expandFold]
      rw [if_neg hvalid]
      exact ih vis q

theorem bfsLoop_isSome (mat : Maze) (ex ey : Int) (pp c : Bool) :
    ∀ (fuel : Nat) (st : SState), countFalse st.visited + st.q.length ≤ fuel →
      (bfsLoop mat ex ey pp c fuel st).isSome := by
  intro fuel
  induction fuel with
  | zero =>
    rintro ⟨vis, q, ap, lp⟩ hm
    simp only at hm
    cases q with
    | nil => rw [bfsLoop_zero_nil]; rfl
    | cons n rest => simp at hm
  | succ f ih =>
    rintro ⟨vis, q, ap, lp⟩ hm
    simp only at hm
    cases q with
    | nil => rw [bfsLoop_succ_nil]; rfl
    | cons n rest =>
      rw [bfsLoop_succ_cons]
      dsimp only
      by_cases hd : n.x = ex ∧ n.y = ey
      · rw [if_pos hd]; rfl
      · rw [if_neg hd]
        apply ih
        dsimp only
        rw [progressStep_visited, progressStep_q]
        dsimp only
        have := expandFold_count mat n possible_moves vis rest
        simp only [List.length_cons] at hm
        omega

theorem countFalse_mkVisited (mat : Maze) : countFalse (mkVisited mat) = cellCount mat := by
  have hrow : ∀ (r : List Char), (r.map (fun _ => false)).count false = r.length := by
    intro r
    induction r with
    | nil => rfl
    | cons a t iht => simp [List.count_cons, iht]
  unfold countFalse mkVisited cellCount
  induction mat with
  | nil => rfl
  | cons r t ih => simp only [List.map_cons, List.map_map, List.sum_cons] at ih ⊢; rw [hrow, ih]

theorem pySet2_mkVisited_count {mat : Maze} {y x : Int} {v : List (List Bool)}
    (h : pySet2 (mkVisited mat) y x true = some v) : countFalse v + 1 = cellCount mat := by
  unfold pySet2 at h
  cases hky : pyIdx (mkVisited mat).length y with
  | none => rw [hky] at h; simp at h
  | some ky =>
    rw [hky] at h
    simp only [Option.some_bind] at h
    cases hrow : (mkVisited mat)[ky]? with
    | none => rw [hrow] at h; simp at h
    | some frow =>
      rw [hrow] at h
      simp only [Option.some_bind] at h
      cases hkx : pyIdx frow.length x with
      | none => rw [hkx] at h; simp at h
      | some kx =>
        rw [hkx] at h
        simp only [Option.map_some', Option.some.injEq] at h
        subst h
        have hkxlt : kx < frow.length := pyIdx_lt hkx
        have hfrow_false : frow[kx]? = some false := by
          have hmk := mkVisited_getElem? mat ky
          rw [hrow] at hmk
          cases hmat : mat[ky]? with
          | none => rw [hmat] at hmk; simp at hmk
          | some r =>
            rw [hmat] at hmk
            simp only [Option.map_some', Option.some.injEq] at hmk
            subst hmk
            rw [List.getElem?_eq_getElem hkxlt]
            simp
        have hsetv : setVisited (mkVisited mat) ky kx = (mkVisited mat).set ky (frow.set kx true) := by
          unfold setVisited
          rw [hrow]
        rw [← hsetv, countFalse_setVisited (mkVisited mat) ky kx frow hrow hfrow_false,
          countFalse_mkVisited]

/-! ### The visited overlay as a set of points -/

theorem getElem?_some_lt {α : Type} {l : List α} {i : Nat} {a : α}
    (h : l[i]? = some a) : i < l.length :=
  (List.getElem?_eq_some.mp h).1

theorem visTrue_iff {v : List (List Bool)} {p : Point} :
    visTrue v p ↔ 0 ≤ p.1 ∧ 0 ≤ p.2 ∧
      ∃ row, v[p.2.toNat]? = some row ∧ row[p.1.toNat]? = some true := by
  unfold visTrue
  constructor
  · rintro ⟨h0, h1, h2⟩
    refine ⟨h0, h1, ?_⟩
    cases hy : v[p.2.toNat]? with
    | none => rw [hy] at h2; simp at h2
    | some row =>
      rw [hy] at h2
      simp only [Option.getD_some] at h2
      rw [List.getD_eq_getElem?_getD] at h2
      cases hx : row[p.1.toNat]? with
      | none => rw [hx] at h2; simp at h2
      | some b =>
        rw [hx] at h2
        simp only [Option.getD_some] at h2
        exact ⟨row, rfl, by rw [hx, h2]⟩
  · rintro ⟨h0, h1, row, hy, hx⟩
    refine ⟨h0, h1, ?_⟩
    rw [hy]
    simp [List.getD_eq_getElem?_getD, hx]

theorem setVisited_getElem? (v : List (List Bool)) (y x i : Nat) :
    (setVisited v y x)[i]? =
      if y = i then (v[i]?).map (fun row => row.set x true) else v[i]? := by
  unfold setVisited
  cases hy : v[y]? with
  | none =>
    by_cases hyi : y = i
    · subst hyi; rw [if_pos rfl, hy]; rfl
    · rw [if_neg hyi]
  | some row =>
    rw [List.getElem?_set]
    by_cases hyi : y = i
    · subst hyi
      rw [if_pos rfl, if_pos rfl, if_pos (getElem?_some_lt hy), hy]
      rfl
    · rw [if_neg hyi, if_neg hyi]

theorem visTrue_setVisited_mono {v : List (List Bool)} {y x : Nat} {p : Point}
    (h : visTrue v p) : visTrue (setVisited v y x) p := by
  rw [visTrue_iff] at h ⊢
  obtain ⟨h0, h1, row, hy, hx⟩ := h
  refine ⟨h0, h1, ?_⟩
  rw [setVisited_getElem?]
  by_cases hyi : y = p.2.toNat
  · rw [if_pos hyi, hy]
    refine ⟨row.set x true, rfl, ?_⟩
    rw [List.getElem?_set]
    by_cases hxj : x = p.1.toNat
    · subst hxj; rw [if_pos rfl, if_pos (getElem?_some_lt hx)]
    · rw [if_neg hxj]; exact hx
  · rw [if_neg hyi]; exact ⟨row, hy, hx⟩

theorem visTrue_setVisited_elim {v : List (List Bool)} {y x : Nat} {p : Point}
    (h : visTrue (setVisited v y x) p) :
    visTrue v p ∨ (p.2.toNat = y ∧ p.1.toNat = x) := by
  rw [visTrue_iff] at h
  obtain ⟨h0, h1, row, hy, hx⟩ := h
  rw [setVisited_getElem?] at hy
  by_cases hyi : y = p.2.toNat
  · rw [if_pos hyi] at hy
    cases hv : v[p.2.toNat]? with
    | none => rw [hv] at hy; simp at hy
    | some vrow =>
      rw [hv] at hy
      simp only [Option.map_some', Option.some.injEq] at hy
      subst hy
      rw [List.getElem?_set] at hx
      by_cases hxj : x = p.1.toNat
      · exact Or.inr ⟨hyi.symm, hxj.symm⟩
      · rw [if_neg hxj] at hx
        exact Or.inl (visTrue_iff.mpr ⟨h0, h1, vrow, hv, hx⟩)
  · rw [if_neg hyi] at hy
    exact Or.inl (visTrue_iff.mpr ⟨h0, h1, row, hy, hx⟩)

theorem visTrue_setVisited_self {v : List (List Bool)} {y x : Nat} {row : List Bool}
    (hy : v[y]? = some row) (hx : x < row.length)
    {p : Point} (h0 : 0 ≤ p.1) (h1 : 0 ≤ p.2) (hpy : p.2.toNat = y) (hpx : p.1.toNat = x) :
    visTrue (setVisited v y x) p := by
  rw [visTrue_iff]
  refine ⟨h0, h1, row.set x true, ?_, ?_⟩
  · rw [setVisited_getElem?, hpy, if_pos rfl, hy]; rfl
  · rw [hpx, List.getElem?_set, if_pos rfl, if_pos hx]

theorem visTrue_mkVisited (mat : Maze) (p : Point) : ¬ visTrue (mkVisited mat) p := by
  rw [visTrue_iff]
  rintro ⟨h0, h1, row, hy, hx⟩
  rw [mkVisited_getElem?] at hy
  cases hm : mat[p.2.toNat]? with
  | none => rw [hm] at hy; simp at hy
  | some r =>
    rw [hm] at hy
    simp only [Option.map_some', Option.some.injEq] at hy
    subst hy
    rw [List.getElem?_map] at hx
    cases r[p.1.toNat]? with
    | none => simp at hx
    | some ch => simp at hx

/-! ### Shape preservation -/

theorem Shape_mkVisited (mat : Maze) : Shape (mkVisited mat) mat := by
  constructor
  · simp [mkVisited]
  · intro i
    rw [mkVisited_getElem?]
    cases h : mat[i]? with
    | none => simp [matRowLen, h]
    | some r => simp [matRowLen, h]

theorem Shape_setVisited {v : List (List Bool)} {mat : Maze} (hs : Shape v mat) (y x : Nat) :
    Shape (setVisited v y x) mat := by
  obtain ⟨h1, h2⟩ := hs
  constructor
  · unfold setVisited
    cases hy : v[y]? with
    | none => exact h1
    | some row => simp [h1]
  · intro i
    rw [setVisited_getElem?]
    by_cases hyi : y = i
    · rw [if_pos hyi]
      cases hv : v[i]? with
      | none =>
        have := h2 i
        rw [hv] at this
        simpa using this
      | some row =>
        have := h2 i
        rw [hv] at this
        simpa using this
    · rw [if_neg hyi]; exact h2 i

theorem visGet_eq_visTrue {v : List (List Bool)} {mat : Maze} (hs : Shape v mat)
    {p : Point} (hin : inB mat p) :
    visGet v p.2.toNat p.1.toNat = true ↔ visTrue v p := by
  obtain ⟨hlen, hrows⟩ := hs
  obtain ⟨h1, h2, h3, h4⟩ := hin
  have hylt : p.2.toNat < v.length := by rw [hlen]; omega
  obtain ⟨row, hy⟩ : ∃ row, v[p.2.toNat]? = some row := ⟨_, List.getElem?_eq_getElem hylt⟩
  have hrl : row.length = matRowLen mat p.2.toNat := by
    have := hrows p.2.toNat
    rw [hy] at this
    simpa using this
  have hxlt : p.1.toNat < row.length := by rw [hrl]; omega
  obtain ⟨b, hx⟩ : ∃ b, row[p.1.toNat]? = some b := ⟨_, List.getElem?_eq_getElem hxlt⟩
  unfold visGet
  rw [hy]
  simp only [Option.getD_some]
  rw [List.getD_eq_getElem?_getD, hx]
  simp only [Option.getD_some]
  rw [visTrue_iff]
  constructor
  · intro hb
    exact ⟨h3, h1, row, hy, by rw [hx, hb]⟩
  · rintro ⟨-, -, row', hy', hx'⟩
    rw [hy] at hy'
    simp only [Option.some.injEq] at hy'
    subst hy'
    rw [hx] at hx'
    simp only [Option.some.injEq] at hx'
    exact hx'

theorem is_valid_iff {mat : Maze} {v : List (List Bool)} {px py : Int} (hs : Shape v mat) :
    is_valid mat v px py = true ↔ freeCell mat (px, py) ∧ ¬ visTrue v (px, py) := by
  rw [is_valid_true_iff]
  constructor
  · rintro ⟨a, b, c2, d2, e2, f2⟩
    have hin : inB mat (px, py) := ⟨a, b, c2, d2⟩
    refine ⟨⟨hin, e2⟩, fun hvt => ?_⟩
    rw [← visGet_eq_visTrue hs hin] at hvt
    rw [f2] at hvt
    exact Bool.noConfusion hvt
  · rintro ⟨⟨hin, e2⟩, hnv⟩
    obtain ⟨a, b, c2, d2⟩ := hin
    refine ⟨a, b, c2, d2, e2, ?_⟩
    cases hvg : visGet v py.toNat px.toNat
    · rfl
    · exact absurd ((visGet_eq_visTrue hs ⟨a, b, c2, d2⟩).mp hvg) hnv

/-! ### Well-formed nodes and the two-level queue -/

theorem NodeOK_reaches {mat : Maze} {src : Point} (Hsrc : freeCell mat src) :
    ∀ {n : Node}, NodeOK mat src n → Reaches mat src (Node.cell n) (Node.dist n) := by
  intro n
  induction n with
  | root x y d mv =>
    rintro ⟨hcell, hd, -⟩
    show Reaches mat src (x, y) d
    rw [hcell, hd]
    exact .refl Hsrc
  | cons x y d mv p ih =>
    rintro ⟨⟨m, -, hcell⟩, hd, hfree, hok⟩
    show Reaches mat src (x, y) d
    rw [hcell, hd]
    exact .tail m (ih hok) (hcell ▸ hfree)

theorem reconstruct_length_dist {mat : Maze} {src : Point} :
    ∀ {n : Node}, NodeOK mat src n → (reconstruct n).1.length = Node.dist n := by
  intro n
  induction n with
  | root x y d mv =>
    rintro ⟨-, hd, -⟩
    simp [reconstruct, Node.dist, hd]
  | cons x y d mv p ih =>
    rintro ⟨-, hd, -, hok⟩
    simp [reconstruct, Node.dist, hd, ih hok]

theorem twoLevel_head_le {n : Node} {rest : List Node} (h : TwoLevel (n :: rest)) :
    ∀ m ∈ n :: rest, Node.dist n ≤ Node.dist m := by
  obtain ⟨D, as, bs, heq, has, hbs⟩ := h
  intro m hm
  cases as with
  | nil =>
    simp only [List.nil_append] at heq
    have hn : Node.dist n = D + 1 := hbs n (by rw [← heq]; exact List.mem_cons_self ..)
    have hm' : Node.dist m = D + 1 := hbs m (by rw [← heq]; exact hm)
    omega
  | cons a as' =>
    rw [List.cons_append] at heq
    injection heq with h1 h2
    subst h1
    subst h2
    have hn : Node.dist n = D := has n (List.mem_cons_self ..)
    rw [hn]
    rcases List.mem_cons.mp hm with rfl | hm'
    · omega
    · rcases List.mem_append.mp hm' with h1 | h1
      · rw [has m (List.mem_cons_of_mem _ h1)]
      · rw [hbs m h1]; omega

theorem twoLevel_step {n : Node} {rest news : List Node} (h : TwoLevel (n :: rest))
    (hnews : ∀ nd ∈ news, Node.dist nd = Node.dist n + 1) : TwoLevel (rest ++ news) := by
  obtain ⟨D, as, bs, heq, has, hbs⟩ := h
  cases as with
  | nil =>
    simp only [List.nil_append] at heq
    have hn : Node.dist n = D + 1 := hbs n (by rw [← heq]; exact List.mem_cons_self ..)
    refine ⟨D + 1, rest, news, rfl, ?_, ?_⟩
    · intro m hm
      exact hbs m (by rw [← heq]; exact List.mem_cons_of_mem _ hm)
    · intro nd hnd
      rw [hnews nd hnd, hn]
  | cons a as' =>
    rw [List.cons_append] at heq
    injection heq with h1 h2
    subst h1
    subst h2
    have hn : Node.dist n = D := has n (List.mem_cons_self ..)
    refine ⟨D, as', bs ++ news, List.append_assoc .., ?_, ?_⟩
    · intro m hm
      exact has m (List.mem_cons_of_mem _ hm)
    · intro nd hnd
      rcases List.mem_append.mp hnd with h1 | h1
      · exact hbs nd h1
      · rw [hnews nd h1, hn]

/-! ### Distance exactness at dequeue time -/

/-- When the head of the queue has distance `D`, every cell a walk of at most
`D` moves can reach is already visited. -/
theorem reaches_visited_of_le {mat : Maze} {src dest : Point} {vis : List (List Bool)}
    {n : Node} {rest : List Node} (inv : Inv mat src dest vis (n :: rest)) :
    ∀ {p : Point} {k : Nat}, Reaches mat src p k → k ≤ Node.dist n → visTrue vis p := by
  intro p k h
  induction h with
  | refl hf => intro _; exact inv.srcVis
  | tail m hr hf ih =>
    rename_i c k'
    intro hk
    have hc : visTrue vis c := ih (by omega)
    rcases inv.closure c hc with hin | hcl
    · obtain ⟨nd, hnd, hcell⟩ := List.mem_map.mp hin
      have h1 : Node.dist nd ≤ k' := inv.qMin nd hnd k' (by rw [hcell]; exact hr)
      have h2 : Node.dist n ≤ Node.dist nd := twoLevel_head_le inv.twoLevel nd hnd
      exact absurd h1 (by omega)
    · exact hcl m hf

/-- When the queue is empty, every reachable cell is visited. -/
theorem reachable_visited_of_nil {mat : Maze} {src dest : Point} {vis : List (List Bool)}
    (inv : Inv mat src dest vis []) :
    ∀ {p : Point} {k : Nat}, Reaches mat src p k → visTrue vis p := by
  intro p k h
  induction h with
  | refl hf => exact inv.srcVis
  | tail m hr hf ih =>
    rcases inv.closure _ ih with hin | hcl
    · simp at hin
    · exact hcl m hf

/-! ### The expansion step preserves the invariant -/

/-- What one pass over the move list does to the overlay and the queue: the
overlay grows by freshly visited free neighbors of the expanded node `n`, each
of which is also appended to the queue as a well-formed entry at distance
`Node.dist n + 1` whose cell no walk shorter than `Node.dist n + 1` reaches;
and afterwards every free neighbor of `n` whose move was in the list is
visited. -/
theorem expandFold_inv (mat : Maze) (src : Point) (n : Node)
    (vis0 : List (List Bool)) (hnOK : NodeOK mat src n)
    (hnmin : ∀ p k, Reaches mat src p k → k ≤ Node.dist n → visTrue vis0 p) :
    ∀ (ms : List (Move × (Int × Int))) (vis : List (List Bool)) (q : List Node),
      (∀ e ∈ ms, e.2 = (Move.dx e.1, Move.dy e.1)) →
      Shape vis mat →
      (∀ p, visTrue vis0 p → visTrue vis p) →
      Shape (expandFold mat n ms (vis, q)).1 mat ∧
      (∀ p, visTrue vis p → visTrue (expandFold mat n ms (vis, q)).1 p) ∧
      (∀ p, visTrue (expandFold mat n ms (vis, q)).1 p → visTrue vis p ∨
        (freeCell mat p ∧ p ∈ ((expandFold mat n ms (vis, q)).2.map Node.cell) ∧
          ∃ m : Move, p = stepPt (Node.cell n) m)) ∧
      (∃ news, (expandFold mat n ms (vis, q)).2 = q ++ news ∧ ∀ nd ∈ news,
        Node.dist nd = Node.dist n + 1 ∧ NodeOK mat src nd ∧
        visTrue (expandFold mat n ms (vis, q)).1 (Node.cell nd) ∧
        (∀ k, Reaches mat src (Node.cell nd) k → Node.dist n + 1 ≤ k)) ∧
      (∀ m : Move, freeCell mat (stepPt (Node.cell n) m) →
        ((m, (Move.dx m, Move.dy m)) ∈ ms ∨ visTrue vis (stepPt (Node.cell n) m)) →
        visTrue (expandFold mat n ms (vis, q)).1 (stepPt (Node.cell n) m)) := by
  intro ms
  induction ms with
  | nil =>
    intro vis q hdelta hshape hmono0
    refine ⟨hshape, fun p h => h, fun p h => Or.inl h, ⟨[], by simp [expandFold], by simp⟩, ?_⟩
    intro m hf hor
    rcases hor with hin | hv
    · simp at hin
    · exact hv
  | cons hd tl ih =>
    intro vis q hdelta hshape hmono0
    obtain ⟨m0, d0⟩ := hd
    have hd0 : d0 = (Move.dx m0, Move.dy m0) := hdelta (m0, d0) (List.mem_cons_self ..)
    subst hd0
    have hdelta' : ∀ e ∈ tl, e.2 = (Move.dx e.1, Move.dy e.1) :=
      fun e he => hdelta e (List.mem_cons_of_mem _ he)
    by_cases hval : is_valid mat vis (Node.x n + Move.dx m0) (Node.y n + Move.dy m0)
    · -- the target of `m0` is enterable: it is marked visited and enqueued
      obtain ⟨hfree, hunvis⟩ := (is_valid_iff hshape).mp hval
      have hfree' := hfree
      dsimp only [freeCell, inB] at hfree'
      obtain ⟨⟨hty0, htylt, htx0, htxlt⟩, hwall⟩ := hfree'
      -- the row of the overlay at the target, for the self-visit lemma
      have htylt' : (Node.y n + Move.dy m0).toNat < vis.length := by
        rw [hshape.1]; omega
      obtain ⟨row, hrow⟩ : ∃ row, vis[(Node.y n + Move.dy m0).toNat]? = some row :=
        ⟨_, List.getElem?_eq_getElem htylt'⟩
      have hrl : row.length = matRowLen mat (Node.y n + Move.dy m0).toNat := by
        have := hshape.2 (Node.y n + Move.dy m0).toNat
        rw [hrow] at this
        simpa using this
      have htxlt' : (Node.x n + Move.dx m0).toNat < row.length := by rw [hrl]; omega
      have hself : visTrue
          (setVisited vis (Node.y n + Move.dy m0).toNat (Node.x n + Move.dx m0).toNat)
          (Node.x n + Move.dx m0, Node.y n + Move.dy m0) :=
        visTrue_setVisited_self hrow htxlt' htx0 hty0 rfl rfl
      have hmono₁ : ∀ p, visTrue vis p →
          visTrue (setVisited vis (Node.y n + Move.dy m0).toNat (Node.x n + Move.dx m0).toNat) p :=
        fun p h => visTrue_setVisited_mono h
      obtain ⟨C1, C2, C3, ⟨news, hq, hnews⟩, C5⟩ :=
        ih (setVisited vis (Node.y n + Move.dy m0).toNat (Node.x n + Move.dx m0).toNat)
          (q ++ [Node.cons (Node.x n + Move.dx m0) (Node.y n + Move.dy m0)
            (Node.dist n + 1) (some m0) n])
          hdelta' (Shape_setVisited hshape _ _) (fun p h => hmono₁ p (hmono0 p h))
      simp only [expandFold]
      rw [if_pos hval]
      have hndmem : Node.cons (Node.x n + Move.dx m0) (Node.y n + Move.dy m0)
          (Node.dist n + 1) (some m0) n ∈
            (expandFold mat n tl
              (setVisited vis (Node.y n + Move.dy m0).toNat (Node.x n + Move.dx m0).toNat,
               q ++ [Node.cons (Node.x n + Move.dx m0) (Node.y n + Move.dy m0)
                 (Node.dist n + 1) (some m0) n])).2 := by
        rw [hq]
        exact List.mem_append_left _ (List.mem_append_right _ (List.mem_singleton.mpr rfl))
      have hndmin : ∀ k, Reaches mat src (Node.x n + Move.dx m0, Node.y n + Move.dy m0) k →
          Node.dist n + 1 ≤ k := by
        intro k hk
        by_contra hlt
        exact hunvis (hmono0 _ (hnmin _ k hk (by omega)))
      refine ⟨C1, ?_, ?_, ?_, ?_⟩
      · exact fun p h => C2 p (hmono₁ p h)
      · intro p hp
        rcases C3 p hp with h1 | ⟨hf2, hmem2, hm2⟩
        · rcases visTrue_setVisited_elim h1 with h2 | ⟨hpy, hpx⟩
          · exact Or.inl h2
          · obtain ⟨hp1, hp2, -⟩ := h1
            have hpeq : p = (Node.x n + Move.dx m0, Node.y n + Move.dy m0) := by
              have e1 : p.1 = Node.x n + Move.dx m0 := by omega
              have e2 : p.2 = Node.y n + Move.dy m0 := by omega
              exact Prod.ext e1 e2
            refine Or.inr ⟨by rw [hpeq]; exact hfree, ?_, m0, by rw [hpeq]; rfl⟩
            exact List.mem_map.mpr ⟨_, hndmem, hpeq.symm⟩
        · exact Or.inr ⟨hf2, hmem2, hm2⟩
      · refine ⟨Node.cons (Node.x n + Move.dx m0) (Node.y n + Move.dy m0)
          (Node.dist n + 1) (some m0) n :: news, ?_, ?_⟩
        · rw [hq, List.append_assoc]
          rfl
        · intro nd hnd
          rcases List.mem_cons.mp hnd with rfl | hnd'
          · refine ⟨rfl, ⟨⟨m0, rfl, rfl⟩, rfl, hfree, hnOK⟩, ?_, ?_⟩
            · exact C2 _ hself
            · exact hndmin
          · exact hnews nd hnd'
      · intro m hf hor
        rcases hor with hin | hv
        · rcases List.mem_cons.mp hin with heq | hin'
          · have hm : m = m0 := congrArg Prod.fst heq
            subst hm
            exact C2 _ hself
          · exact C5 m hf (Or.inl hin')
        · exact C5 m hf (Or.inr (hmono₁ _ hv))
    · -- the target of `m0` is not enterable: state unchanged for this move
      obtain ⟨C1, C2, C3, C4, C5⟩ := ih vis q hdelta' hshape hmono0
      simp only [expandFold]
      rw [if_neg hval]
      refine ⟨C1, C2, C3, C4, ?_⟩
      intro m hf hor
      rcases hor with hin | hv
      · rcases List.mem_cons.mp hin with heq | hin'
        · have hm : m = m0 := congrArg Prod.fst heq
          have hvis : visTrue vis (stepPt (Node.cell n) m) := by
            by_contra h'
            rw [hm] at hf h'
            exact hval ((is_valid_iff hshape).mpr ⟨hf, h'⟩)
          exact C5 m hf (Or.inr hvis)
        · exact C5 m hf (Or.inl hin')
      · exact C5 m hf (Or.inr hv)

theorem move_mem_possible (m : Move) : (m, (Move.dx m, Move.dy m)) ∈ possible_moves := by
  cases m <;> decide

theorem possible_moves_delta : ∀ e ∈ possible_moves, e.2 = (Move.dx e.1, Move.dy e.1) := by
  intro e he
  simp only [possible_moves, List.mem_cons, List.not_mem_nil, or_false] at he
  rcases he with rfl | rfl | rfl | rfl <;> rfl

/-- Expanding the head of the queue (when it is not the destination)
preserves the invariant. -/
theorem step_inv {mat : Maze} {src dest : Point} {vis : List (List Bool)}
    {n : Node} {rest : List Node}
    (inv : Inv mat src dest vis (n :: rest)) (hne : Node.cell n ≠ dest) :
    Inv mat src dest (expandFold mat n possible_moves (vis, rest)).1
      (expandFold mat n possible_moves (vis, rest)).2 := by
  have hnOK := inv.qOK n (List.mem_cons_self ..)
  have hnmin : ∀ p k, Reaches mat src p k → k ≤ Node.dist n → visTrue vis p :=
    fun p k hk hle => reaches_visited_of_le inv hk hle
  obtain ⟨C1, C2, C3, ⟨news, hfq, hnews⟩, C5⟩ :=
    expandFold_inv mat src n vis hnOK hnmin possible_moves vis rest
      possible_moves_delta inv.shape (fun p h => h)
  refine ⟨C1, C2 _ inv.srcVis, ?_, ?_, ?_, ?_, ?_, ?_, ?_⟩
  · -- reach
    intro p hp
    rcases C3 p hp with h0 | ⟨hfree, -, m, rfl⟩
    · exact inv.reach p h0
    · obtain ⟨k, hk⟩ := inv.reach _ (inv.qVis n (List.mem_cons_self ..))
      exact ⟨k + 1, .tail m hk hfree⟩
  · -- qVis
    intro nd hnd
    rw [hfq] at hnd
    rcases List.mem_append.mp hnd with h | h
    · exact C2 _ (inv.qVis nd (List.mem_cons_of_mem _ h))
    · exact (hnews nd h).2.2.1
  · -- qOK
    intro nd hnd
    rw [hfq] at hnd
    rcases List.mem_append.mp hnd with h | h
    · exact inv.qOK nd (List.mem_cons_of_mem _ h)
    · exact (hnews nd h).2.1
  · -- qMin
    intro nd hnd k hk
    rw [hfq] at hnd
    rcases List.mem_append.mp hnd with h | h
    · exact inv.qMin nd (List.mem_cons_of_mem _ h) k hk
    · rw [(hnews nd h).1]
      exact (hnews nd h).2.2.2 k hk
  · -- twoLevel
    rw [hfq]
    exact twoLevel_step inv.twoLevel (fun nd h => (hnews nd h).1)
  · -- closure
    intro p hp
    rcases C3 p hp with h0 | ⟨-, hmem, -⟩
    · rcases inv.closure p h0 with hin | hcl
      · rcases List.mem_map.mp hin with ⟨nd, hnd, hcell⟩
        rcases List.mem_cons.mp hnd with rfl | hnd'
        · -- p is the cell of the expanded node: all free neighbors now visited
          right
          intro m hm
          subst hcell
          exact C5 m hm (Or.inl (move_mem_possible m))
        · refine Or.inl ?_
          rw [hfq]
          exact List.mem_map.mpr ⟨nd, List.mem_append_left _ hnd', hcell⟩
      · right
        intro m hm
        exact C2 _ (hcl m hm)
    · exact Or.inl hmem
  · -- destQ
    intro hd
    rcases C3 dest hd with h0 | ⟨-, hmem, -⟩
    · have hin := inv.destQ h0
      rcases List.mem_map.mp hin with ⟨nd, hnd, hcell⟩
      rcases List.mem_cons.mp hnd with rfl | hnd'
      · exact absurd hcell hne
      · rw [hfq]
        exact List.mem_map.mpr ⟨nd, List.mem_append_left _ hnd', hcell⟩
    · exact hmem

/-! ### The loop lemma -/

/-- Running the loop from a state satisfying the invariant, with enough fuel:
the loop returns, every cell visited in the final state is reachable from the
source, and the result is either a terminal node at the destination whose
distance is a lower bound of every walk to the destination, or `none`, in
which case the destination is unreachable. -/
theorem bfsLoop_inv (mat : Maze) (src dest : Point) (pp c : Bool) :
    ∀ (fuel : Nat) (st : SState), Inv mat src dest st.visited st.q →
      countFalse st.visited + st.q.length ≤ fuel →
      ∃ res st', bfsLoop mat dest.1 dest.2 pp c fuel st = some (res, st') ∧
        (∀ p, visTrue st'.visited p → ∃ k, Reaches mat src p k) ∧
        (match res with
         | some n => Node.cell n = dest ∧ NodeOK mat src n ∧
             ∀ k, Reaches mat src dest k → Node.dist n ≤ k
         | none => ∀ k, ¬ Reaches mat src dest k) := by
  intro fuel
  induction fuel with
  | zero =>
    rintro ⟨vis, q, ap, lp⟩ inv hm
    simp only at inv hm
    cases q with
    | cons n rest => simp at hm
    | nil =>
      refine ⟨none, ⟨vis, [], ap, lp⟩, bfsLoop_zero_nil .., inv.reach, ?_⟩
      intro k hk
      exact absurd (inv.destQ (reachable_visited_of_nil inv hk)) (by simp)
  | succ f ih =>
    rintro ⟨vis, q, ap, lp⟩ inv hm
    simp only at inv hm
    cases q with
    | nil =>
      refine ⟨none, ⟨vis, [], ap, lp⟩, bfsLoop_succ_nil .., inv.reach, ?_⟩
      intro k hk
      exact absurd (inv.destQ (reachable_visited_of_nil inv hk)) (by simp)
    | cons n rest =>
      by_cases hd : Node.x n = dest.1 ∧ Node.y n = dest.2
      · -- destination dequeued
        refine ⟨some n, progressStep pp c ⟨vis, rest, ap, lp⟩ n, ?_, ?_, ?_⟩
        · rw [bfsLoop_succ_cons]
          dsimp only
          rw [if_pos hd]
        · rw [progressStep_visited]
          exact inv.reach
        · have hcell : Node.cell n = dest := Prod.ext hd.1 hd.2
          refine ⟨hcell, inv.qOK n (List.mem_cons_self ..), ?_⟩
          intro k hk
          exact inv.qMin n (List.mem_cons_self ..) k (by rw [hcell]; exact hk)
      · -- expand and recurse
        have hne : Node.cell n ≠ dest := by
          intro hc
          exact hd ⟨congrArg Prod.fst hc, congrArg Prod.snd hc⟩
        have hinv' := step_inv inv hne
        have hcnt := expandFold_count mat n possible_moves vis rest
        have hstep : bfsLoop mat dest.1 dest.2 pp c (f + 1) ⟨vis, n :: rest, ap, lp⟩ =
            bfsLoop mat dest.1 dest.2 pp c f
              { progressStep pp c ⟨vis, rest, ap, lp⟩ n with
                visited := (expandFold mat n possible_moves (vis, rest)).1,
                q := (expandFold mat n possible_moves (vis, rest)).2 } := by
          rw [bfsLoop_succ_cons]
          dsimp only
          rw [if_neg hd]
          rw [progressStep_visited, progressStep_q]
        obtain ⟨res, st', hloop, hvis, hres⟩ := ih
          { progressStep pp c ⟨vis, rest, ap, lp⟩ n with
            visited := (expandFold mat n possible_moves (vis, rest)).1,
            q := (expandFold mat n possible_moves (vis, rest)).2 }
          hinv' (by simp only [List.length_cons] at hm; dsimp only; omega)
        exact ⟨res, st', by rw [hstep]; exact hloop, hvis, hres⟩

/-! ### The initial state -/

theorem pySet2_mkVisited_eq {mat : Maze} {p : Point} (hin : inB mat p) :
    pySet2 (mkVisited mat) p.2 p.1 true =
      some (setVisited (mkVisited mat) p.2.toNat p.1.toNat) := by
  obtain ⟨h1, h2, h3, h4⟩ := hin
  have hmklen : (mkVisited mat).length = mat.length := by simp [mkVisited]
  have hky : pyIdx (mkVisited mat).length p.2 = some p.2.toNat := by
    rw [hmklen]; exact pyIdx_of_nonneg_lt h1 h2
  have hylt : p.2.toNat < (mkVisited mat).length := by omega
  obtain ⟨frow, hfrow⟩ : ∃ r, (mkVisited mat)[p.2.toNat]? = some r :=
    ⟨_, List.getElem?_eq_getElem hylt⟩
  have hfl : frow.length = matRowLen mat p.2.toNat := by
    have := (Shape_mkVisited mat).2 p.2.toNat
    rw [hfrow] at this
    simpa using this
  have hkx : pyIdx frow.length p.1 = some p.1.toNat := by
    rw [hfl]; exact pyIdx_of_nonneg_lt h3 h4
  unfold pySet2
  rw [hky]
  simp only [Option.some_bind]
  rw [hfrow]
  simp only [Option.some_bind]
  rw [hkx]
  simp only [Option.map_some', Option.some.injEq]
  unfold setVisited
  rw [hfrow]

theorem Inv_init {mat : Maze} {src dest : Point} (Hsrc : freeCell mat src) :
    Inv mat src dest (setVisited (mkVisited mat) src.2.toNat src.1.toNat)
      [Node.root src.1 src.2 0 none] := by
  obtain ⟨⟨hy0, hylt, hx0, hxlt⟩, hwall⟩ := Hsrc
  have hmklen : (mkVisited mat).length = mat.length := by simp [mkVisited]
  have hylt' : src.2.toNat < (mkVisited mat).length := by omega
  obtain ⟨frow, hfrow⟩ : ∃ r, (mkVisited mat)[src.2.toNat]? = some r :=
    ⟨_, List.getElem?_eq_getElem hylt'⟩
  have hfl : frow.length = matRowLen mat src.2.toNat := by
    have := (Shape_mkVisited mat).2 src.2.toNat
    rw [hfrow] at this
    simpa using this
  have hxlt' : src.1.toNat < frow.length := by omega
  have hself : visTrue (setVisited (mkVisited mat) src.2.toNat src.1.toNat) src :=
    visTrue_setVisited_self hfrow hxlt' hx0 hy0 rfl rfl
  have honly : ∀ p, visTrue (setVisited (mkVisited mat) src.2.toNat src.1.toNat) p → p = src := by
    intro p hp
    rcases visTrue_setVisited_elim hp with h | ⟨hpy, hpx⟩
    · exact absurd h (visTrue_mkVisited mat p)
    · obtain ⟨hp1, hp2, -⟩ := hp
      have e1 : p.1 = src.1 := by omega
      have e2 : p.2 = src.2 := by omega
      exact Prod.ext e1 e2
  have hmem : src ∈ List.map Node.cell [Node.root src.1 src.2 0 none] := by
    simp [Node.cell, Node.x, Node.y]
  refine ⟨Shape_setVisited (Shape_mkVisited mat) _ _, hself, ?_, ?_, ?_, ?_, ?_, ?_, ?_⟩
  · intro p hp
    rw [honly p hp]
    exact ⟨0, .refl ⟨⟨hy0, hylt, hx0, hxlt⟩, hwall⟩⟩
  · intro nd hnd
    rw [List.mem_singleton.mp hnd]
    show visTrue _ (src.1, src.2)
    rw [Prod.mk.eta]
    exact hself
  · intro nd hnd
    rw [List.mem_singleton.mp hnd]
    exact ⟨Prod.mk.eta, rfl, rfl⟩
  · intro nd hnd k hk
    rw [List.mem_singleton.mp hnd]
    exact Nat.zero_le k
  · refine ⟨0, [Node.root src.1 src.2 0 none], [], rfl, ?_, ?_⟩
    · intro nd hnd
      rw [List.mem_singleton.mp hnd]
      rfl
    · intro nd hnd
      simp at hnd
  · intro p hp
    rw [honly p hp]
    exact Or.inl hmem
  · intro hd
    rw [honly dest hd]
    exact hmem

/-! ## Claims -/

/-- Claim C2, counterexample: on the worked example grid the call succeeds,
but the returned path has as many entries as the move list (not one more) and
does not start at the source: the reconstruction excludes the source cell. -/
theorem c2_counterexample :
    find_shortest_path exGrid (0, 0) (2, 2) false false =
      .ok (some ([(1, 0), (2, 0), (2, 1), (2, 2)],
        [some Move.Right, some Move.Right, some Move.Down, some Move.Down])) ∧
    ([some Move.Right, some Move.Right, some Move.Down, some Move.Down] : List (Option Move)).length ≠
      ([(1, 0), (2, 0), (2, 1), (2, 2)] : List Point).length - 1 ∧
    ([(1, 0), (2, 0), (2, 1), (2, 2)] : List Point).head? ≠ some ((0 : Int), (0 : Int)) := by
  refine ⟨rfl, by decide, by decide⟩

/-- Claim C2, amended: on every successful call the move list and the path
have the same length (the path excludes the source cell), and when the path is
non-empty its last entry is the destination. -/
theorem c2_amended (mat : Maze) (s d : Point) (pp c : Bool)
    (path : List Point) (moves : List (Option Move))
    (h : find_shortest_path mat s d pp c = .ok (some (path, moves))) :
    moves.length = path.length ∧ (path ≠ [] → path.getLast? = some d) := by
  unfold find_shortest_path at h
  by_cases he : mat.isEmpty
  · rw [if_pos he] at h; simp at h
  · rw [if_neg he] at h
    cases hgs : pyGet2 mat s.2 s.1 with
    | none =>
      cases hge : pyGet2 mat d.2 d.1 with
      | none => rw [hgs, hge] at h; simp at h
      | some ce => rw [hgs, hge] at h; simp at h
    | some cs =>
      cases hge : pyGet2 mat d.2 d.1 with
      | none => rw [hgs, hge] at h; simp at h
      | some ce =>
        rw [hgs, hge] at h
        dsimp only at h
        rw [if_neg (by simp [pyStrEqZero])] at h
        unfold searchFrom at h
        cases hset : pySet2 (mkVisited mat) s.2 s.1 true with
        | none => rw [hset] at h; simp at h
        | some v =>
          rw [hset] at h
          dsimp only at h
          cases hloop : bfsLoop mat d.1 d.2 pp c (cellCount mat + 1)
              ⟨v, [Node.root s.1 s.2 0 none], [], none⟩ with
          | none => rw [hloop] at h; simp at h
          | some r =>
            obtain ⟨res, st'⟩ := r
            cases res with
            | none => rw [hloop] at h; simp at h
            | some n =>
              rw [hloop] at h
              dsimp only at h
              have hrec : reconstruct n = (path, moves) := by
                have := h
                simp only [Except.ok.injEq, Option.some.injEq] at this
                exact this
              have hp : (reconstruct n).1 = path := by rw [hrec]
              have hm : (reconstruct n).2 = moves := by rw [hrec]
              constructor
              · rw [← hp, ← hm, reconstruct_len]
              · intro hne
                cases n with
                | root nx ny nd nmv =>
                  rw [← hp] at hne
                  simp [reconstruct] at hne
                | cons nx ny nd nmv p =>
                  obtain ⟨hx, hy⟩ := bfsLoop_found mat d.1 d.2 pp c _ _ _ _ hloop
                  simp only [Node.x] at hx
                  simp only [Node.y] at hy
                  rw [← hp, reconstruct_getLast, hx, hy]

/-- Claim C2, witness: the amended statement applied to the worked example
grid. -/
theorem c2_witness :
    (4 : Nat) = (4 : Nat) ∧
      (([(1, 0), (2, 0), (2, 1), (2, 2)] : List Point) ≠ [] →
        ([(1, 0), (2, 0), (2, 1), (2, 2)] : List Point).getLast? = some (2, 2)) :=
  c2_amended exGrid (0, 0) (2, 2) false false
    [(1, 0), (2, 0), (2, 1), (2, 2)]
    [some Move.Right, some Move.Right, some Move.Down, some Move.Down] rfl

/-- Claim C3, counterexample: on a one-cell grid with source equal to
destination the call succeeds with the empty path and empty move list, not
with the one-entry path `[source]`. -/
theorem c3_counterexample :
    find_shortest_path [[FREE]] (0, 0) (0, 0) false false = .ok (some ([], [])) ∧
    (Except.ok (some (([], []) : List Point × List (Option Move))) :
        Except PyErr (Option (List Point × List (Option Move)))) ≠
      .ok (some ([((0 : Int), (0 : Int))], [])) := by
  refine ⟨rfl, by simp⟩

/-- Claim C3, amended: whenever the source coordinates are within the Python
index range of the grid (so the entry check does not raise) and source equals
destination, the call succeeds with the empty path and the empty move list:
the loop stops on the first dequeue, before any expansion, and the
reconstruction of the root yields `([], [])`. -/
theorem c3_amended (mat : Maze) (src : Point) (pp c : Bool)
    (h : pyGet2 mat src.2 src.1 ≠ none) :
    find_shortest_path mat src src pp c = .ok (some ([], [])) := by
  obtain ⟨cs, hcs⟩ := Option.ne_none_iff_exists'.mp h
  have hne := not_isEmpty_of_pyGet2 hcs
  obtain ⟨v, hv⟩ := pySet2_of_pyGet2 hcs true
  unfold find_shortest_path
  rw [if_neg hne, hcs]
  dsimp only
  rw [if_neg (by simp [pyStrEqZero])]
  unfold searchFrom
  rw [hv]
  dsimp only
  rw [bfsLoop_succ_cons]
  dsimp only
  rw [if_pos ⟨rfl, rfl⟩]
  rfl

/-- Claim C3, witness: the amended statement applied to a one-cell grid. -/
theorem c3_witness :
    find_shortest_path [[FREE]] (0, 0) (0, 0) false false = .ok (some ([], [])) :=
  c3_amended [[FREE]] (0, 0) false false (by decide)

/-- Claim C4: the entry check compares the start and end cells to the integer
`0`, which is never equal to a string, so a `WALL` source is not rejected: on
the grid `#.` with source `(0, 0)` (a wall) and destination `(1, 0)` the
search runs, expands the wall source, and returns a path, instead of the
`InvalidInput` result `(None, None)` with no expansion. -/
theorem c4_wall_source_searched :
    find_shortest_path [[WALL, FREE]] (0, 0) (1, 0) false false =
      .ok (some ([(1, 0)], [some Move.Right])) := rfl

/-- Claim C5, counterexample: an out-of-range endpoint is not reported as an
`InvalidInput` result: the entry check itself raises `IndexError` (here the
source row index `1` on a one-row grid). -/
theorem c5_counterexample :
    find_shortest_path [[FREE]] (0, 1) (0, 0) false false = .error .indexError := rfl

/-- Claim C7: the returned result is identical with progress reporting on and
off, and the progress branch never changes the visited overlay or the queue. -/
theorem c7_progress_independent (mat : Maze) (s d : Point) (canvas : Bool) :
    find_shortest_path mat s d true canvas = find_shortest_path mat s d false canvas ∧
    ∀ (pp c : Bool) (st : SState) (n : Node),
      (progressStep pp c st n).visited = st.visited ∧ (progressStep pp c st n).q = st.q := by
  constructor
  · unfold find_shortest_path
    dsimp only
    by_cases he : mat.isEmpty
    · rw [if_pos he, if_pos he]
    · rw [if_neg he, if_neg he]
      cases hgs : pyGet2 mat s.2 s.1 with
      | none =>
        cases hge : pyGet2 mat d.2 d.1 with
        | none => rfl
        | some ce => rfl
      | some cs =>
        cases hge : pyGet2 mat d.2 d.1 with
        | none => rfl
        | some ce =>
          dsimp only
          rw [if_neg (by simp [pyStrEqZero]), if_neg (by simp [pyStrEqZero])]
          exact searchFrom_pp mat s.1 s.2 d.1 d.2 true canvas false canvas
  · intro pp c st n
    exact ⟨progressStep_visited pp c st n, progressStep_q pp c st n⟩

/-- Claim C8: the search is a function of its inputs (two calls on identical
inputs give identical results), the neighbor iteration order is the fixed
list Right, Down, Left, Up of `possible_moves`, and on the worked example grid
this order breaks the tie among the shortest paths in favor of
Right, Right, Down, Down. -/
theorem c8_deterministic :
    (∀ (mat : Maze) (s d : Point) (pp c : Bool)
        (r₁ r₂ : Except PyErr (Option (List Point × List (Option Move)))),
        find_shortest_path mat s d pp c = r₁ → find_shortest_path mat s d pp c = r₂ → r₁ = r₂) ∧
    possible_moves =
      [(Move.Right, (1, 0)), (Move.Down, (0, 1)), (Move.Left, (-1, 0)), (Move.Up, (0, -1))] ∧
    find_shortest_path exGrid (0, 0) (2, 2) false false =
      .ok (some ([(1, 0), (2, 0), (2, 1), (2, 2)],
        [some Move.Right, some Move.Right, some Move.Down, some Move.Down])) := by
  exact ⟨fun mat s d pp c r₁ r₂ h₁ h₂ => h₁.symm.trans h₂, rfl, rfl⟩

/-- Claim C8, witness: determinism applied at a concrete input. -/
theorem c8_witness :
    (Except.ok (some (([], []) : List Point × List (Option Move))) :
        Except PyErr (Option (List Point × List (Option Move)))) = .ok (some ([], [])) :=
  c8_deterministic.1 [[FREE]] (0, 0) (0, 0) false false _ _ rfl rfl

/-- Claim C9: with progress reporting disabled the two files return equal
results on every input. -/
theorem c9_two_files_agree (mat : Maze) (s d : Point) (canvas : Bool) :
    Boi_find_shortest_path mat s d false canvas = find_shortest_path mat s d false canvas := by
  unfold Boi_find_shortest_path find_shortest_path
  dsimp only
  by_cases he : mat.isEmpty
  · rw [if_pos he, if_pos he]
  · rw [if_neg he, if_neg he]
    cases hgs : pyGet2 mat s.2 s.1 with
    | none =>
      cases hge : pyGet2 mat d.2 d.1 with
      | none => rfl
      | some ce => rfl
    | some cs =>
      cases hge : pyGet2 mat d.2 d.1 with
      | none => rfl
      | some ce =>
        dsimp only
        rw [if_neg (by simp [pyStrEqZero]), if_neg (by simp [pyStrEqZero])]
        exact Boi_searchFrom_false mat s.1 s.2 d.1 d.2 canvas

/-- Claim C10: endpoints whose coordinates are within the Python index range
of the grid (in particular negative coordinates down to minus the dimension)
are not rejected: the entry check succeeds by wrap-around indexing and the
call runs the search from the literal, possibly negative, coordinates. -/
theorem c10_negative_accepted (mat : Maze) (sx sy ex ey : Int) (pp c : Bool)
    (hs : pyGet2 mat sy sx ≠ none) (hd : pyGet2 mat ey ex ≠ none) :
    find_shortest_path mat (sx, sy) (ex, ey) pp c = searchFrom mat sx sy ex ey pp c := by
  obtain ⟨cs, hcs⟩ := Option.ne_none_iff_exists'.mp hs
  obtain ⟨ce, hce⟩ := Option.ne_none_iff_exists'.mp hd
  have hne := not_isEmpty_of_pyGet2 hcs
  unfold find_shortest_path
  dsimp only
  rw [if_neg hne, hcs, hce]
  dsimp only
  rw [if_neg (by simp [pyStrEqZero])]

/-- Claim C10, witness: a negative source column wraps around in the entry
check and the search then runs from the literal coordinates, here reaching the
destination in one move. -/
theorem c10_witness :
    find_shortest_path [[FREE, FREE], [FREE, FREE]] (-1, 0) (0, 0) false false =
      searchFrom [[FREE, FREE], [FREE, FREE]] (-1) 0 0 0 false false :=
  c10_negative_accepted [[FREE, FREE], [FREE, FREE]] (-1) 0 0 0 false false
    (by decide) (by decide)

theorem Reaches_inv {mat : Maze} {s p : Point} {k : Nat} (h : Reaches mat s p k) :
    (p = s ∧ k = 0) ∨
      ∃ c m k', k = k' + 1 ∧ p = stepPt c m ∧ Reaches mat s c k' ∧ freeCell mat p := by
  cases h with
  | refl hf => exact Or.inl ⟨rfl, rfl⟩
  | tail m hr hf => exact Or.inr ⟨_, m, _, rfl, rfl, hr, hf⟩

/-- Claim C1: whenever a walk over free cells joins source and destination,
the call succeeds and the returned move list has the exact shortest walk
length: some walk of that length joins the two cells and no walk is
shorter. -/
theorem c1_shortest_path (mat : Maze) (src dest : Point) (pp c : Bool)
    (hreach : ∃ k, Reaches mat src dest k) :
    ∃ path moves,
      find_shortest_path mat src dest pp c = .ok (some (path, moves)) ∧
      Reaches mat src dest moves.length ∧
      ∀ k, Reaches mat src dest k → moves.length ≤ k := by
  obtain ⟨k0, hk0⟩ := hreach
  have Hsrc := Reaches_free_src hk0
  have Hdst := Reaches_free_target hk0
  have hgs := pyGet2_of_inB Hsrc.1
  have hge := pyGet2_of_inB Hdst.1
  have hne := not_isEmpty_of_pyGet2 hgs
  have hv := pySet2_mkVisited_eq Hsrc.1
  have hcnt := pySet2_mkVisited_count hv
  obtain ⟨res, st', hloop, hvis, hres⟩ := bfsLoop_inv mat src dest pp c (cellCount mat + 1)
    ⟨setVisited (mkVisited mat) src.2.toNat src.1.toNat,
      [Node.root src.1 src.2 0 none], [], none⟩
    (Inv_init Hsrc) (by dsimp only; simp only [List.length_singleton]; omega)
  cases res with
  | none => exact absurd hk0 (hres k0)
  | some nd =>
    obtain ⟨hcell, hok, hmin⟩ := hres
    have hlen : (reconstruct nd).2.length = Node.dist nd := by
      rw [reconstruct_len, reconstruct_length_dist hok]
    refine ⟨(reconstruct nd).1, (reconstruct nd).2, ?_, ?_, ?_⟩
    · unfold find_shortest_path
      dsimp only
      rw [if_neg hne, hgs, hge]
      dsimp only
      rw [if_neg (by simp [pyStrEqZero])]
      unfold searchFrom
      rw [hv]
      dsimp only
      rw [hloop]
    · rw [hlen]
      have h := NodeOK_reaches Hsrc hok
      rw [hcell] at h
      exact h
    · intro k hk
      rw [hlen]
      exact hmin k hk

/-- Claim C1, witness: the worked example grid, where the shortest walk has
four moves. -/
theorem c1_witness :
    ∃ path moves,
      find_shortest_path exGrid (0, 0) (2, 2) false false = .ok (some (path, moves)) ∧
      Reaches exGrid (0, 0) (2, 2) moves.length ∧
      ∀ k, Reaches exGrid (0, 0) (2, 2) k → moves.length ≤ k :=
  c1_shortest_path exGrid (0, 0) (2, 2) false false ⟨4, by
    have h0 : Reaches exGrid (0, 0) (0, 0) 0 := .refl (by decide)
    have h1 : Reaches exGrid (0, 0) (1, 0) 1 := Reaches.tail Move.Right h0 (by decide)
    have h2 : Reaches exGrid (0, 0) (2, 0) 2 := Reaches.tail Move.Right h1 (by decide)
    have h3 : Reaches exGrid (0, 0) (2, 1) 3 := Reaches.tail Move.Down h2 (by decide)
    exact Reaches.tail Move.Down h3 (by decide)⟩

/-- Claim C5, amended: on the empty grid, and whenever both endpoints lie
within the Python index range of the grid, the call terminates without an
exception and returns an ordinary value: a success pair or `(None, None)`
(the code reports both `NotFound` and `InvalidInput` situations as the same
value `(None, None)`).  Endpoints outside the index range instead raise
`IndexError` at the entry check (see the counterexample). -/
theorem c5_amended (mat : Maze) (s d : Point) (pp c : Bool)
    (h : mat = [] ∨ (pyGet2 mat s.2 s.1 ≠ none ∧ pyGet2 mat d.2 d.1 ≠ none)) :
    ∃ r, find_shortest_path mat s d pp c = .ok r := by
  rcases h with rfl | ⟨hs, hd⟩
  · exact ⟨none, rfl⟩
  · obtain ⟨cs, hcs⟩ := Option.ne_none_iff_exists'.mp hs
    obtain ⟨ce, hce⟩ := Option.ne_none_iff_exists'.mp hd
    have hne := not_isEmpty_of_pyGet2 hcs
    obtain ⟨v, hv⟩ := pySet2_of_pyGet2 hcs true
    have hcnt := pySet2_mkVisited_count hv
    have hsome := bfsLoop_isSome mat d.1 d.2 pp c (cellCount mat + 1)
      ⟨v, [Node.root s.1 s.2 0 none], [], none⟩
      (by dsimp only; simp only [List.length_singleton]; omega)
    unfold find_shortest_path
    dsimp only
    rw [if_neg hne, hcs, hce]
    dsimp only
    rw [if_neg (by simp [pyStrEqZero])]
    unfold searchFrom
    rw [hv]
    dsimp only
    cases hloop : bfsLoop mat d.1 d.2 pp c (cellCount mat + 1)
        ⟨v, [Node.root s.1 s.2 0 none], [], none⟩ with
    | none => rw [hloop] at hsome; simp at hsome
    | some r =>
      obtain ⟨res, st'⟩ := r
      cases res with
      | none => exact ⟨none, rfl⟩
      | some n => exact ⟨some (reconstruct n), rfl⟩

/-- Claim C5, witness: the amended statement at a one-cell grid. -/
theorem c5_witness : ∃ r, find_shortest_path [[FREE]] (0, 0) (0, 0) false false = .ok r :=
  c5_amended [[FREE]] (0, 0) (0, 0) false false (Or.inr ⟨by decide, by decide⟩)

/-- Claim C6, counterexample: a `WALL` source is not connected to anything by
free cells, so the claim as stated demands `NotFound`; but the entry check
never fires (string cells never equal the integer `0`), the wall source is
expanded, and the search returns a path. -/
theorem c6_counterexample :
    (∀ k, ¬ Reaches [[WALL, FREE], [FREE, FREE]] (0, 0) (1, 1) k) ∧
    find_shortest_path [[WALL, FREE], [FREE, FREE]] (0, 0) (1, 1) false false =
      .ok (some ([(1, 0), (1, 1)], [some Move.Right, some Move.Down])) ∧
    (Except.ok (some (([(1, 0), (1, 1)], [some Move.Right, some Move.Down]) :
        List Point × List (Option Move))) :
      Except PyErr (Option (List Point × List (Option Move)))) ≠ .ok none := by
  refine ⟨?_, rfl, by simp⟩
  intro k hk
  exact absurd (Reaches_free_src hk) (by decide)

/-- Claim C6, amended: for an in-bounds non-`WALL` source and an in-bounds
destination joined to it by no walk over free cells, the call returns
`(None, None)` (the `NotFound` result), and every cell the final visited
overlay marks is reachable from the source through free cells (marks are
never cleared, so no other cell is ever marked during the search). -/
theorem c6_amended (mat : Maze) (src dest : Point) (pp c : Bool)
    (Hsrc : freeCell mat src) (Hdin : inB mat dest)
    (hnone : ∀ k, ¬ Reaches mat src dest k) :
    find_shortest_path mat src dest pp c = .ok none ∧
    ∀ res st',
      bfsLoop mat dest.1 dest.2 pp c (cellCount mat + 1)
        ⟨setVisited (mkVisited mat) src.2.toNat src.1.toNat,
          [Node.root src.1 src.2 0 none], [], none⟩ = some (res, st') →
      ∀ p, visTrue st'.visited p → ∃ k, Reaches mat src p k := by
  have hgs := pyGet2_of_inB Hsrc.1
  have hge := pyGet2_of_inB Hdin
  have hne := not_isEmpty_of_pyGet2 hgs
  have hv := pySet2_mkVisited_eq Hsrc.1
  have hcnt := pySet2_mkVisited_count hv
  obtain ⟨res, st', hloop, hvis, hres⟩ := bfsLoop_inv mat src dest pp c (cellCount mat + 1)
    ⟨setVisited (mkVisited mat) src.2.toNat src.1.toNat,
      [Node.root src.1 src.2 0 none], [], none⟩
    (Inv_init Hsrc) (by dsimp only; simp only [List.length_singleton]; omega)
  constructor
  · cases res with
    | some nd =>
      obtain ⟨hcell, hok, -⟩ := hres
      have h := NodeOK_reaches Hsrc hok
      rw [hcell] at h
      exact absurd h (hnone _)
    | none =>
      unfold find_shortest_path
      dsimp only
      rw [if_neg hne, hgs, hge]
      dsimp only
      rw [if_neg (by simp [pyStrEqZero])]
      unfold searchFrom
      rw [hv]
      dsimp only
      rw [hloop]
  · intro res₂ st₂ h₂
    rw [hloop] at h₂
    simp only [Option.some.injEq, Prod.mk.injEq] at h₂
    obtain ⟨-, rfl⟩ := h₂
    exact hvis

/-- Claim C6, witness: a one-row grid whose middle cell is a wall, so the
right cell is unreachable from the left one. -/
theorem c6_witness :
    find_shortest_path [[FREE, WALL, FREE]] (0, 0) (2, 0) false false = .ok none :=
  (c6_amended [[FREE, WALL, FREE]] (0, 0) (2, 0) false false (by decide) (by decide) (by
    intro k hk
    rcases Reaches_inv hk with ⟨heq, -⟩ | ⟨cpt, m, k', -, heq, hr, -⟩
    · exact absurd heq (by decide)
    · have hfc := Reaches_free_target hr
      obtain ⟨cx, cy⟩ := cpt
      cases m with
      | Right =>
        simp only [stepPt, Move.dx, Move.dy, Prod.mk.injEq] at heq
        obtain ⟨h1, h2⟩ := heq
        have hcx : cx = 1 := by omega
        have hcy : cy = 0 := by omega
        subst hcx; subst hcy
        exact absurd hfc (by decide)
      | Down =>
        simp only [stepPt, Move.dx, Move.dy, Prod.mk.injEq] at heq
        obtain ⟨h1, h2⟩ := heq
        have hcx : cx = 2 := by omega
        have hcy : cy = -1 := by omega
        subst hcx; subst hcy
        exact absurd hfc (by decide)
      | Left =>
        simp only [stepPt, Move.dx, Move.dy, Prod.mk.injEq] at heq
        obtain ⟨h1, h2⟩ := heq
        have hcx : cx = 3 := by omega
        have hcy : cy = 0 := by omega
        subst hcx; subst hcy
        exact absurd hfc (by decide)
      | Up =>
        simp only [stepPt, Move.dx, Move.dy, Prod.mk.injEq] at heq
        obtain ⟨h1, h2⟩ := heq
        have hcx : cx = 2 := by omega
        have hcy : cy = 1 := by omega
        subst hcx; subst hcy
        exact absurd hfc (by decide))).1

end PyPath
